import Mathlib

/-!
Shallow embedding of the `stepselection` package of mpl/skipper (the final,
JSON-based implementation: `CmdTree`, `NewDependencyGraph`, `fileDeps`,
`StepDependsOnFiles`) together with the legacy `ShouldRunStep` linear scan.

Modelling conventions:
* Go strings are modelled as Lean `String` (sequences of Unicode scalar values).
* Go maps are modelled as association lists.  A Go map is an unordered
  collection; the association-list order is one admissible enumeration order.
  For `step.readFiles` (which the Go code enumerates with `range`, an order Go
  deliberately leaves unspecified) the enumeration-order sensitivity of query
  results is treated explicitly by `graphEquiv` below.
* Go slices (`fileWriters` entries) are ordered and modelled as `List`.
* The `*step` pointers stored in `fileWriters` alias the entries of `g.steps`;
  this sharing is modelled by storing the step name and resolving the current
  `readFiles` through `g.steps` at query time.
* `os.Getwd` is modelled by an explicit `cwd` parameter (its value on the
  successful path); the recursion of `fileDeps` is modelled with explicit fuel
  (the Go recursion has no fuel; termination is recovered as a theorem).
-/

/-- One parsed line of the build report, Go struct `BuildLog`. -/
structure BuildLog where
  cmdTree : List String
  mode : String
  file : String
deriving DecidableEq

/-- Go struct `step`: the per-step record of the dependency graph. -/
structure Step where
  name : String
  readFiles : List String
deriving DecidableEq

/-- Go struct `DependencyGraph`: `steps map[string]*step` and
`fileWriters map[string][]*step` (writers kept as step names, see header). -/
structure DependencyGraph where
  steps : List (String × Step)
  fileWriters : List (String × List String)
deriving DecidableEq

/-- Go module-level `ignoreFiles` map. -/
def ignoreFiles : List String := ["/dev/null"]

/-- Association-list lookup, modelling Go map indexing. -/
def assocLookup {α : Type} : List (String × α) → String → Option α
  | [], _ => none
  | (k, v) :: rest, n => if k = n then some v else assocLookup rest n

/-- Association-list update, modelling Go map assignment `m[k] = v`. -/
def assocUpdate {α : Type} : List (String × α) → String → α → List (String × α)
  | [], k, v => [(k, v)]
  | (k', v') :: rest, k, v =>
    if k' = k then (k, v) :: rest else (k', v') :: assocUpdate rest k v

/-- The writer list `g.fileWriters[filePath]` (a missing key reads as `nil`). -/
def writersOf (g : DependencyGraph) (f : String) : List String :=
  (assocLookup g.fileWriters f).getD []

/-- The read set of the step named `n`, resolved through `g.steps` (this is
`step.readFiles` behind the shared `*step` pointer). -/
def readsOf (g : DependencyGraph) (n : String) : List String :=
  ((assocLookup g.steps n).map Step.readFiles).getD []

/-- Hex digit characters used by Go's `encoding/json` (lowercase). -/
def hexDigit (n : Nat) : Char :=
  ("0123456789abcdef".data).getD n '0'

/-- Four lowercase hex digits of `n % 0x10000`, as in `\uXXXX` escapes. -/
def hex4 (n : Nat) : List Char :=
  [hexDigit (n / 4096 % 16), hexDigit (n / 256 % 16), hexDigit (n / 16 % 16),
    hexDigit (n % 16)]

/-- The `\uXXXX` escape for a character, as emitted by `encoding/json`. -/
def uEscape (c : Char) : List Char :=
  '\\' :: 'u' :: hex4 c.toNat

/-- Go `encoding/json` escaping of one character of a string value (the
default HTML-escaping encoder used by `json.Marshal`). -/
def jsonEscapeChar (c : Char) : List Char :=
  if c = '"' then ['\\', '"']
  else if c = '\\' then ['\\', '\\']
  else if c = '\n' then ['\\', 'n']
  else if c = '\r' then ['\\', 'r']
  else if c = '\t' then ['\\', 't']
  else if c = '<' ∨ c = '>' ∨ c = '&' then uEscape c
  else if c.toNat < 0x20 then uEscape c
  else if c.toNat = 0x2028 ∨ c.toNat = 0x2029 then uEscape c
  else [c]

/-- Go `encoding/json` encoding of one string value, quotes included. -/
def jsonQuote (s : String) : List Char :=
  '"' :: (s.data.flatMap jsonEscapeChar ++ ['"'])

/-- Item list of a JSON array of strings: the characters after the `[`. -/
def jsonItems : List String → List Char
  | [] => [']']
  | [s] => jsonQuote s ++ [']']
  | s :: rest => jsonQuote s ++ ',' :: jsonItems rest

/-- `CmdTree.Name`: `json.Marshal` of the token list (the empty tree is
rendered as the empty JSON array). -/
def cmdTreeName (c : List String) : String :=
  ⟨'[' :: jsonItems c⟩

/-- Go `fmt` `%v` rendering of a `[]string`, used by the unknown-step error. -/
def fmtStrSlice (c : List String) : String :=
  "[" ++ String.intercalate " " c ++ "]"

/-- Go `strconv.Quote` escaping of one character (`fmt` `%q`).  Exact for
ASCII; non-ASCII characters pass through unescaped (the `unicode.IsPrint`
table for non-ASCII is elided; every string this development quotes is
ASCII). -/
def goQuoteChar (c : Char) : List Char :=
  if c = '"' then ['\\', '"']
  else if c = '\\' then ['\\', '\\']
  else if 0x20 ≤ c.toNat ∧ c.toNat ≤ 0x7e then [c]
  else if c = Char.ofNat 7 then ['\\', 'a']
  else if c = Char.ofNat 8 then ['\\', 'b']
  else if c = Char.ofNat 12 then ['\\', 'f']
  else if c = '\n' then ['\\', 'n']
  else if c = '\r' then ['\\', 'r']
  else if c = '\t' then ['\\', 't']
  else if c = Char.ofNat 11 then ['\\', 'v']
  else if c.toNat < 0x20 ∨ c.toNat = 0x7f then
    '\\' :: 'x' :: [hexDigit (c.toNat / 16 % 16), hexDigit (c.toNat % 16)]
  else [c]

/-- Go `strconv.Quote` / `fmt` `%q` of a string. -/
def goQuote (s : String) : String :=
  ⟨'"' :: (s.data.flatMap goQuoteChar ++ ['"'])⟩

/-- Go `path.IsAbs`. -/
def goIsAbs (p : String) : Bool :=
  match p.data with
  | '/' :: _ => true
  | _ => false

/-- Split a character list on `/` (Go `strings.Split(p, "/")`). -/
def splitSlashAux : List Char → List Char → List String
  | acc, [] => [⟨acc.reverse⟩]
  | acc, '/' :: rest => (⟨acc.reverse⟩ : String) :: splitSlashAux [] rest
  | acc, c :: rest => splitSlashAux (c :: acc) rest

/-- Path components of a string. -/
def splitSlash (p : String) : List String :=
  splitSlashAux [] p.data

/-- Join components with `/` (Go `strings.Join(parts, "/")`). -/
def joinSlash : List String → String
  | [] => ""
  | [s] => s
  | s :: rest => s ++ "/" ++ joinSlash rest

/-- One folding action of the component form of Go `path.Clean`: process one
path element against the stack of kept elements (stack head = last kept). -/
def cleanComp (rooted : Bool) (stack : List String) (c : String) : List String :=
  if c = "" ∨ c = "." then stack
  else if c = ".." then
    match stack with
    | [] => if rooted then [] else [".."]
    | t :: rest => if t = ".." then c :: stack else rest
  else c :: stack

/-- Go `path.Clean` (lexical cleaning; the standard element-stack form of the
algorithm in `path/path.go`). -/
def goPathClean (p : String) : String :=
  if p = "" then "." else
  let rooted := goIsAbs p
  let parts := ((splitSlash p).foldl (cleanComp rooted) []).reverse
  let joined := joinSlash parts
  if rooted then "/" ++ joined
  else if joined = "" then "." else joined

/-- Go `path.Join` of two elements, as used by `absoluteNodePath`. -/
def goPathJoin (a b : String) : String :=
  if a = "" ∧ b = "" then ""
  else if a = "" then goPathClean b
  else goPathClean (a ++ "/" ++ b)

/-- Go `absoluteNodePath`; `cwd` is the (successful) result of `os.Getwd`. -/
def absoluteNodePath (cwd : String) (node : String) : String :=
  if goIsAbs node then node else goPathJoin cwd node

/-- The non-empty ancestor chains visited by Go `walkUpStepTree`, in
root-to-leaf order: `step[0:i+1]` for each index `i`. -/
def ancestorChains (c : List String) : List (List String) :=
  (List.range c.length).map (fun i => c.take (i + 1))

/-- The set-insertion `s.readFiles[node] = true` (content of the Go map;
insertion order is kept as the canonical enumeration order). -/
def insertRead (l : List String) (x : String) : List String :=
  if x ∈ l then l else l ++ [x]

/-- `g.fileWriters[node] = append(g.fileWriters[node], s)` (by step name). -/
def appendWriter : List (String × List String) → String → String →
    List (String × List String)
  | [], f, n => [(f, [n])]
  | (k, l) :: rest, f, n =>
    if k = f then (k, l ++ [n]) :: rest else (k, l) :: appendWriter rest f n

/-- The body of the `walkUpStepTree` callback in `NewDependencyGraph`:
fetch-or-create the step, record the access, store the step back. -/
def addAccess (g : DependencyGraph) (mode file name : String) :
    DependencyGraph :=
  let s := (assocLookup g.steps name).getD ⟨name, []⟩
  if mode = "R" then
    let s2 : Step := ⟨s.name, insertRead s.readFiles file⟩
    ⟨assocUpdate g.steps name s2, g.fileWriters⟩
  else
    ⟨assocUpdate g.steps name s, appendWriter g.fileWriters file name⟩

/-- Processing of one parsed record of the build report: the access is fanned
out to every ancestor chain of `bog.CmdTree`. -/
def addRecord (g : DependencyGraph) (b : BuildLog) : DependencyGraph :=
  (ancestorChains b.cmdTree).foldl
    (fun g p => addAccess g b.mode b.file (cmdTreeName p)) g

/-- The scan loop of `NewDependencyGraph` over the (already line-split) build
report.  `none` stands for a line `json.Unmarshal` rejects; the whole
construction fails on the first such line and no graph is returned. -/
def buildGraph : DependencyGraph → List (Option BuildLog) →
    Option DependencyGraph
  | g, [] => some g
  | _, none :: _ => none
  | g, some b :: rest => buildGraph (addRecord g b) rest

/-- Go `NewDependencyGraph` (record-level: the input is the stream of
per-line parse results). -/
def NewDependencyGraph (input : List (Option BuildLog)) :
    Option DependencyGraph :=
  buildGraph ⟨[], []⟩ input

/-- Go `lookupState.stepChecked`: the set of step names already expanded in
the current top-level query. -/
def LookupState : Type := List String

/-- The inner loop of `fileDeps` over `step.readFiles` of one newly marked
writer step: skip the file being expanded, otherwise record the read file and
recurse (`frec` is `fileDeps` at the next fuel level). -/
def fileDepsFiles (frec : List String → String → Option (List String × List String))
    (fp : String) : List String → List String → Option (List String × List String)
  | st, [] => some ([], st)
  | st, x :: l =>
    if x = fp then fileDepsFiles frec fp st l
    else
      (frec st x).bind fun p =>
        (fileDepsFiles frec fp p.2 l).map fun q => (x :: (p.1 ++ q.1), q.2)

/-- The outer loop of `fileDeps` over `g.fileWriters[filePath]`: skip steps
already in `stepChecked`, otherwise mark the step and walk its reads. -/
def fileDepsWriters (g : DependencyGraph)
    (frec : List String → String → Option (List String × List String))
    (fp : String) : List String → List String → Option (List String × List String)
  | st, [] => some ([], st)
  | st, n :: ws =>
    if n ∈ st then fileDepsWriters g frec fp st ws
    else
      (fileDepsFiles frec fp (n :: st) (readsOf g n)).bind fun p =>
        (fileDepsWriters g frec fp p.2 ws).map fun q => (p.1 ++ q.1, q.2)

/-- Go `(*DependencyGraph).fileDeps`, with explicit fuel for the recursion
(`none` = fuel exhausted; `StepDependsOnFiles` supplies provably sufficient
fuel, see the termination theorem). -/
def fileDeps (g : DependencyGraph) : Nat → List String → String →
    Option (List String × List String)
  | 0, _, _ => none
  | fuel + 1, st, f =>
    if f ∈ ignoreFiles then some ([], st)
    else fileDepsWriters g (fileDeps g fuel) f st (writersOf g f)

/-- All step names occurring in `g.fileWriters`, deduplicated; only used to
size the fuel of `fileDeps` (each of these can be marked at most once). -/
def writerNames (g : DependencyGraph) : List String :=
  (g.fileWriters.foldr (fun p acc => p.2 ++ acc) []).dedup

/-- Fuel that provably suffices for any `fileDeps` walk on `g`. -/
def queryFuel (g : DependencyGraph) : Nat :=
  (writerNames g).length + 1

/-- The `(bool, string, error)` result of `StepDependsOnFiles`. -/
inductive QueryResult where
  | ok (depends : Bool) (reason : String)
  | err (msg : String)
deriving DecidableEq

/-- Reason built for a direct read of a changed file. -/
def directReason (sname f : String) : String :=
  "step " ++ goQuote sname ++ " reads file " ++ goQuote f ++
    " which is being updated"

/-- Reason built for a transitive dependency on a changed file. -/
def transReason (sname f : String) : String :=
  "step " ++ goQuote sname ++ " has a dependency that uses " ++ goQuote f

/-- The nested loops matching the transitive dependencies against
`changedFiles`: the first element of `ds` that occurs in `changed`. -/
def firstMatch : List String → List String → Option String
  | [], _ => none
  | d :: ds, changed =>
    if d ∈ changed then some d else firstMatch ds changed

/-- The loop of `StepDependsOnFiles` over the queried step's `readFiles`,
threading the shared per-query `lookupState`.  The `none` branch of the
`fileDeps` call is unreachable at the fuel `StepDependsOnFiles` uses (the Go
recursion has no such case). -/
def queryLoop (g : DependencyGraph) (sname : String) (changed : List String) :
    List String → List String → QueryResult
  | [], _ => .ok false ""
  | f :: rest, st =>
    if f ∈ changed then .ok true (directReason sname f)
    else
      match fileDeps g (queryFuel g) st f with
      | none => .ok false ""
      | some (ds, st1) =>
        match firstMatch ds changed with
        | some d => .ok true (transReason sname d)
        | none => queryLoop g sname changed rest st1

/-- Go `(*DependencyGraph).StepDependsOnFiles`; `cwd` is the working
directory used by `absoluteNodePath` on the `changedFiles` entries (record
paths are not normalized). -/
def StepDependsOnFiles (cwd : String) (g : DependencyGraph)
    (cmdTree : List String) (changedFiles : List String) : QueryResult :=
  let changed := changedFiles.map (absoluteNodePath cwd)
  match assocLookup g.steps (cmdTreeName cmdTree) with
  | none => .err ("unknown step: " ++ fmtStrSlice cmdTree)
  | some s => queryLoop g s.name changed s.readFiles []

/-- The `depends` boolean of a query result (`none` on error). -/
def verdict : QueryResult → Option Bool
  | .ok b _ => some b
  | .err _ => none

/-- Drop a literal pattern from the front of a character list. -/
def listDropPref : List Char → List Char → Option (List Char)
  | [], s => some s
  | _, [] => none
  | p :: ps, c :: cs => if p = c then listDropPref ps cs else none

/-- `strings.HasPrefix(s, pat)` over character lists (`pat` first). -/
def listIsPref : List Char → List Char → Bool
  | [], _ => true
  | _, [] => false
  | p :: ps, c :: cs => p = c && listIsPref ps cs

/-- The optional `(?:--id [^ ]+ )?` group of the skipper regexp: `--id `,
a maximal non-empty run of non-space characters, then ` -- `. -/
def skipIdGroup (rest : List Char) : Option (List Char) :=
  match listDropPref ("--id ".data) rest with
  | none => none
  | some r2 =>
    let tok := r2.takeWhile (fun c => c ≠ ' ')
    if tok = [] then none
    else listDropPref (" -- ".data) (r2.drop tok.length)

/-- Go `StepFromSkipperArgs` / `cleanStepName`: strip one anchored match of
`^skipper (?:--id [^ ]+ )?-- ` (the `?` group is tried greedily first; the
two alternatives cannot both match because `--id` and `-- ` differ at their
third character). -/
def stepFromSkipperArgs (s : String) : String :=
  match listDropPref ("skipper ".data) s.data with
  | none => s
  | some rest =>
    match skipIdGroup rest with
    | some r => ⟨r⟩
    | none =>
      match listDropPref ("-- ".data) rest with
      | some r => ⟨r⟩
      | none => s

/-- The scan loop of the legacy `ShouldRunStep` (record-level: `rows` is the
stream of parsed CSV records; a row of the wrong width makes the function
fall back to running the step). -/
def shouldRunScan (updatedNodes : List String) (sname : String) :
    List (List String) → Bool → Bool × Option String
  | [], seen => if seen then (false, none) else (true, none)
  | rr :: rest, seen =>
    match rr with
    | [a, _, node] =>
      if stepFromSkipperArgs a ≠ sname then
        shouldRunScan updatedNodes sname rest seen
      else if updatedNodes.any (fun f => listIsPref node.data f.data) then
        (true, none)
      else shouldRunScan updatedNodes sname rest true
    | _ => (true, none)

/-- The legacy linear-scan `ShouldRunStep` of the `stepselection` package
(the variant with the `stepSeen` new-step fallback). -/
def ShouldRunStep (rows : List (List String)) (updatedNodes : List String)
    (stepName : String) : Bool × Option String :=
  if updatedNodes = [] then (true, none)
  else shouldRunScan updatedNodes (stepFromSkipperArgs stepName) rows false

/-- One backward dependency edge between files: `b` is reachable from `a` in
one hop when some (non-sentinel) writer of `a` reads `b` (the self-loop skip
of `fileDeps` excludes `b = a`). -/
def Edge (g : DependencyGraph) (a b : String) : Prop :=
  a ∉ ignoreFiles ∧ ∃ n ∈ writersOf g a, b ∈ readsOf g n ∧ b ≠ a

/-- Transitive backward reachability over `Edge` (one or more hops). -/
def Reach (g : DependencyGraph) : String → String → Prop :=
  Relation.TransGen (Edge g)

/-- The semantic content of a dependency query: some file read by the step is
changed, or reaches a changed file backward through writer steps. -/
def semMatch (g : DependencyGraph) (reads changed : List String) : Prop :=
  ∃ f ∈ reads, f ∈ changed ∨ ∃ r, Reach g f r ∧ r ∈ changed

/-- Two graphs hold the same Go map contents: identical writer slices, and
step entries that agree up to the (unspecified) enumeration order of the
`readFiles` map. -/
def graphEquiv (g1 g2 : DependencyGraph) : Prop :=
  g1.fileWriters = g2.fileWriters ∧
    ∀ n, (assocLookup g1.steps n = none ∧ assocLookup g2.steps n = none) ∨
      ∃ s1 s2, assocLookup g1.steps n = some s1 ∧
        assocLookup g2.steps n = some s2 ∧ s1.name = s2.name ∧
        s1.readFiles.Perm s2.readFiles

/-- Agreement of two query results in boolean verdict and error (the reason
string is allowed to differ). -/
def agreeBoolErr : QueryResult → QueryResult → Prop
  | .ok b1 _, .ok b2 _ => b1 = b2
  | .err m1, .err m2 => m1 = m2
  | _, _ => False

/-- The character a two-character JSON escape decodes to. -/
def escOf (x : Char) : Option Char :=
  if x = '"' then some '"'
  else if x = '\\' then some '\\'
  else if x = 'n' then some '\n'
  else if x = 'r' then some '\r'
  else if x = 't' then some '\t'
  else none

def recsC1 : List (Option BuildLog) :=
  [some ⟨["s1"], "R", "/F1"⟩, some ⟨["s1"], "W", "/F2"⟩,
    some ⟨["s2"], "R", "/F2"⟩, some ⟨["s2"], "W", "/F3"⟩,
    some ⟨["s3"], "R", "/F3"⟩]

def gC1 : DependencyGraph := (NewDependencyGraph recsC1).getD ⟨[], []⟩

/-- A graph whose only step reads `/a` then `/b` (one enumeration order of
the same `readFiles` map contents as `G2ce`). -/
def G1ce : DependencyGraph :=
  (NewDependencyGraph [some ⟨["s"], "R", "/a"⟩, some ⟨["s"], "R", "/b"⟩]).getD
    ⟨[], []⟩

/-- The same map contents with the other enumeration order: `/b` then `/a`. -/
def G2ce : DependencyGraph :=
  (NewDependencyGraph [some ⟨["s"], "R", "/b"⟩, some ⟨["s"], "R", "/a"⟩]).getD
    ⟨[], []⟩

/-- Count of writer-step names not yet marked in the lookup state: the
decreasing measure of the memoized walk. -/
def unmarked (g : DependencyGraph) (st : List String) : Nat :=
  (writerNames g).countP (fun n => decide (n ∉ st))

/-- Marked-step invariant with exceptions: every step marked in `st` either
is one of the still-pending steps `X` or has all its reads inside the
explored file set `E`. -/
def MIexc (g : DependencyGraph) (E X st : List String) : Prop :=
  ∀ n ∈ st, n ∈ X ∨ ∀ r ∈ readsOf g n, r ∈ E

lemma hexDigit_inj16 : ∀ a b : Fin 16, hexDigit a.val = hexDigit b.val → a = b := by
  decide

lemma hexDigit_inj {a b : Nat} (ha : a < 16) (hb : b < 16)
    (h : hexDigit a = hexDigit b) : a = b := by
  have := hexDigit_inj16 ⟨a, ha⟩ ⟨b, hb⟩ h
  exact congrArg Fin.val this

lemma hex4_inj {m n : Nat} (hm : m < 65536) (hn : n < 65536)
    (h : hex4 m = hex4 n) : m = n := by
  unfold hex4 at h
  simp only [List.cons.injEq, and_true] at h
  obtain ⟨h1, h2, h3, h4⟩ := h
  have e1 := hexDigit_inj (Nat.mod_lt _ (by norm_num)) (Nat.mod_lt _ (by norm_num)) h1
  have e2 := hexDigit_inj (Nat.mod_lt _ (by norm_num)) (Nat.mod_lt _ (by norm_num)) h2
  have e3 := hexDigit_inj (Nat.mod_lt _ (by norm_num)) (Nat.mod_lt _ (by norm_num)) h3
  have e4 := hexDigit_inj (Nat.mod_lt _ (by norm_num)) (Nat.mod_lt _ (by norm_num)) h4
  omega

lemma char_toNat_inj {c1 c2 : Char} (h : c1.toNat = c2.toNat) : c1 = c2 :=
  Char.ext_iff.mpr (UInt32.ext_iff.mpr h)

/-- Shape classification of one JSON character escape. -/
lemma jsonEscapeChar_shape (c : Char) :
    (∃ x, jsonEscapeChar c = ['\\', x] ∧ x ≠ 'u' ∧ escOf x = some c) ∨
    (jsonEscapeChar c = '\\' :: 'u' :: hex4 c.toNat ∧ c.toNat < 65536) ∨
    (jsonEscapeChar c = [c] ∧ c ≠ '\\' ∧ c ≠ '"') := by
  unfold jsonEscapeChar
  split_ifs with h1 h2 h3 h4 h5 h6 h7 h8
  · subst h1; exact Or.inl ⟨'"', rfl, by decide, by simp [escOf]⟩
  · subst h2; exact Or.inl ⟨'\\', rfl, by decide, by simp [escOf]⟩
  · subst h3; exact Or.inl ⟨'n', rfl, by decide, by simp [escOf]⟩
  · subst h4; exact Or.inl ⟨'r', rfl, by decide, by simp [escOf]⟩
  · subst h5; exact Or.inl ⟨'t', rfl, by decide, by simp [escOf]⟩
  · refine Or.inr (Or.inl ⟨rfl, ?_⟩)
    rcases h6 with h | h | h <;> subst h <;> decide
  · exact Or.inr (Or.inl ⟨rfl, by omega⟩)
  · refine Or.inr (Or.inl ⟨rfl, ?_⟩)
    rcases h8 with h | h <;> omega
  · exact Or.inr (Or.inr ⟨rfl, h2, h1⟩)

lemma escOf_det {x : Char} {c1 c2 : Char} (h1 : escOf x = some c1)
    (h2 : escOf x = some c2) : c1 = c2 := by
  rw [h1] at h2
  injection h2

/-- Escape blocks are prefix-determined: equal continuations decode equally. -/
lemma jsonEscapeChar_det {c1 c2 : Char} {t1 t2 : List Char}
    (h : jsonEscapeChar c1 ++ t1 = jsonEscapeChar c2 ++ t2) :
    c1 = c2 ∧ t1 = t2 := by
  rcases jsonEscapeChar_shape c1 with ⟨x1, e1, hu1, ho1⟩ | ⟨e1, hlt1⟩ | ⟨e1, hb1, hq1⟩ <;>
    rcases jsonEscapeChar_shape c2 with ⟨x2, e2, hu2, ho2⟩ | ⟨e2, hlt2⟩ | ⟨e2, hb2, hq2⟩ <;>
    rw [e1, e2] at h <;>
    simp only [List.cons_append, List.nil_append] at h
  · injection h with h1 h2
    injection h2 with hx ht
    subst hx
    exact ⟨escOf_det ho1 ho2, ht⟩
  · injection h with h1 h2
    injection h2 with hx ht
    exact absurd hx hu1
  · injection h with h1 h2
    exact absurd h1.symm hb2
  · injection h with h1 h2
    injection h2 with hx ht
    exact absurd hx.symm hu2
  · injection h with h1 h2
    injection h2 with hu h4
    unfold hex4 at h4
    simp only [List.cons_append, List.nil_append] at h4
    injection h4 with d1 h5
    injection h5 with d2 h6
    injection h6 with d3 h7
    injection h7 with d4 ht
    have e1' := hexDigit_inj (Nat.mod_lt _ (by norm_num)) (Nat.mod_lt _ (by norm_num)) d1
    have e2' := hexDigit_inj (Nat.mod_lt _ (by norm_num)) (Nat.mod_lt _ (by norm_num)) d2
    have e3' := hexDigit_inj (Nat.mod_lt _ (by norm_num)) (Nat.mod_lt _ (by norm_num)) d3
    have e4' := hexDigit_inj (Nat.mod_lt _ (by norm_num)) (Nat.mod_lt _ (by norm_num)) d4
    have : c1.toNat = c2.toNat := by omega
    exact ⟨char_toNat_inj this, ht⟩
  · injection h with h1 h2
    exact absurd h1.symm hb2
  · injection h with h1 h2
    exact absurd h1 hb1
  · injection h with h1 h2
    exact absurd h1 hb1
  · injection h with h1 h2
    exact ⟨h1, h2⟩

lemma jsonEscapeChar_head_ne_quote {c h0 : Char} {t0 : List Char}
    (e : jsonEscapeChar c = h0 :: t0) : h0 ≠ '"' := by
  rcases jsonEscapeChar_shape c with ⟨x, e1, -, -⟩ | ⟨e1, -⟩ | ⟨e1, -, hq⟩ <;>
    rw [e1] at e <;> injection e with he _
  · rw [← he]; decide
  · rw [← he]; decide
  · rw [← he]; exact hq

lemma string_data_inj {s1 s2 : String} (h : s1.data = s2.data) : s1 = s2 := by
  cases s1
  cases s2
  congr

/-- The body of a JSON string value is uniquely decodable up to the closing
quote. -/
lemma jsonBody_det : ∀ (s1 s2 : List Char) (t1 t2 : List Char),
    s1.flatMap jsonEscapeChar ++ '"' :: t1 =
      s2.flatMap jsonEscapeChar ++ '"' :: t2 →
    s1 = s2 ∧ t1 = t2 := by
  intro s1
  induction s1 with
  | nil =>
    intro s2 t1 t2 h
    cases s2 with
    | nil => simpa using h
    | cons c s2' =>
      exfalso
      simp only [List.flatMap_cons, List.flatMap_nil, List.nil_append,
        List.append_assoc] at h
      rcases he : jsonEscapeChar c with _ | ⟨h0, t0⟩
      · rcases jsonEscapeChar_shape c with ⟨x, e1, -, -⟩ | ⟨e1, -⟩ | ⟨e1, -, -⟩ <;>
          rw [e1] at he <;> exact List.noConfusion he
      · rw [he] at h
        simp only [List.cons_append] at h
        injection h with hh _
        exact jsonEscapeChar_head_ne_quote he hh.symm
  | cons c1 s1' ih =>
    intro s2 t1 t2 h
    cases s2 with
    | nil =>
      exfalso
      simp only [List.flatMap_cons, List.flatMap_nil, List.nil_append,
        List.append_assoc] at h
      rcases he : jsonEscapeChar c1 with _ | ⟨h0, t0⟩
      · rcases jsonEscapeChar_shape c1 with ⟨x, e1, -, -⟩ | ⟨e1, -⟩ | ⟨e1, -, -⟩ <;>
          rw [e1] at he <;> exact List.noConfusion he
      · rw [he] at h
        simp only [List.cons_append] at h
        injection h with hh _
        exact jsonEscapeChar_head_ne_quote he hh
    | cons c2 s2' =>
      simp only [List.flatMap_cons, List.append_assoc] at h
      obtain ⟨hc, ht⟩ := jsonEscapeChar_det h
      obtain ⟨hs, ht2⟩ := ih s2' t1 t2 ht
      exact ⟨by rw [hc, hs], ht2⟩

/-- JSON string values are prefix-determined. -/
lemma jsonQuote_det {s1 s2 : String} {t1 t2 : List Char}
    (h : jsonQuote s1 ++ t1 = jsonQuote s2 ++ t2) : s1 = s2 ∧ t1 = t2 := by
  unfold jsonQuote at h
  simp only [List.cons_append, List.append_assoc, List.singleton_append] at h
  injection h with _ h2
  obtain ⟨hd, ht⟩ := jsonBody_det s1.data s2.data t1 t2 h2
  exact ⟨string_data_inj hd, ht⟩

/-- The item encoding of a JSON array of strings is injective. -/
lemma jsonItems_inj : ∀ l1 l2 : List String, jsonItems l1 = jsonItems l2 →
    l1 = l2 := by
  intro l1
  induction l1 with
  | nil =>
    intro l2 h
    cases l2 with
    | nil => rfl
    | cons s r =>
      exfalso
      cases r with
      | nil =>
        simp only [jsonItems, jsonQuote, List.cons_append] at h
        exact List.noConfusion h (fun h1 _ => by exact absurd h1 (by decide))
      | cons x xs =>
        simp only [jsonItems, jsonQuote, List.cons_append] at h
        exact List.noConfusion h (fun h1 _ => by exact absurd h1 (by decide))
  | cons s1 r1 ih =>
    intro l2 h
    cases l2 with
    | nil =>
      exfalso
      cases r1 with
      | nil =>
        simp only [jsonItems, jsonQuote, List.cons_append] at h
        exact List.noConfusion h (fun h1 _ => by exact absurd h1 (by decide))
      | cons x xs =>
        simp only [jsonItems, jsonQuote, List.cons_append] at h
        exact List.noConfusion h (fun h1 _ => by exact absurd h1 (by decide))
    | cons s2 r2 =>
      cases r1 with
      | nil =>
        cases r2 with
        | nil =>
          simp only [jsonItems] at h
          obtain ⟨hs, -⟩ := jsonQuote_det h
          rw [hs]
        | cons y ys =>
          exfalso
          simp only [jsonItems] at h
          obtain ⟨-, ht⟩ := jsonQuote_det h
          exact List.noConfusion ht (fun h1 _ => by exact absurd h1 (by decide))
      | cons x xs =>
        cases r2 with
        | nil =>
          exfalso
          simp only [jsonItems] at h
          obtain ⟨-, ht⟩ := jsonQuote_det h
          exact List.noConfusion ht (fun h1 _ => by exact absurd h1 (by decide))
        | cons y ys =>
          simp only [jsonItems] at h
          obtain ⟨hs, ht⟩ := jsonQuote_det h
          injection ht with _ ht2
          rw [hs, ih (y :: ys) ht2]

/-- `CmdTree.Name` (the `json.Marshal` serialization) is injective on token
sequences. -/
lemma cmdTreeName_inj {c1 c2 : List String} (h : cmdTreeName c1 = cmdTreeName c2) :
    c1 = c2 := by
  unfold cmdTreeName at h
  have hd : '[' :: jsonItems c1 = '[' :: jsonItems c2 := congrArg String.data h
  injection hd with _ h2
  exact jsonItems_inj c1 c2 h2

lemma assocLookup_update_self {α : Type} (l : List (String × α)) (k : String)
    (v : α) : assocLookup (assocUpdate l k v) k = some v := by
  induction l with
  | nil => simp [assocUpdate, assocLookup]
  | cons p rest ih =>
    obtain ⟨k', v'⟩ := p
    by_cases hk : k' = k
    · simp [assocUpdate, hk, assocLookup]
    · simp [assocUpdate, hk, assocLookup, ih]

lemma assocLookup_update_ne {α : Type} (l : List (String × α)) {k k' : String}
    (v : α) (h : k' ≠ k) :
    assocLookup (assocUpdate l k v) k' = assocLookup l k' := by
  induction l with
  | nil => simp [assocUpdate, assocLookup, Ne.symm h]
  | cons p rest ih =>
    obtain ⟨k0, v0⟩ := p
    by_cases hk : k0 = k
    · subst hk
      simp [assocUpdate, assocLookup, Ne.symm h]
    · simp only [assocUpdate, if_neg hk, assocLookup]
      by_cases hk' : k0 = k'
      · simp [hk']
      · simp [hk', ih]

lemma assocLookup_appendWriter_self (l : List (String × List String))
    (f n : String) :
    assocLookup (appendWriter l f n) f =
      some ((assocLookup l f).getD [] ++ [n]) := by
  induction l with
  | nil => simp [appendWriter, assocLookup]
  | cons p rest ih =>
    obtain ⟨k, v⟩ := p
    by_cases hk : k = f
    · simp [appendWriter, hk, assocLookup]
    · simp [appendWriter, hk, assocLookup, ih]

lemma assocLookup_appendWriter_ne (l : List (String × List String))
    {f f' : String} (n : String) (h : f' ≠ f) :
    assocLookup (appendWriter l f n) f' = assocLookup l f' := by
  induction l with
  | nil => simp [appendWriter, assocLookup, Ne.symm h]
  | cons p rest ih =>
    obtain ⟨k, v⟩ := p
    by_cases hk : k = f
    · subst hk
      simp [appendWriter, assocLookup, Ne.symm h]
    · simp only [appendWriter, if_neg hk, assocLookup]
      by_cases hk' : k = f'
      · simp [hk']
      · simp [hk', ih]

lemma getD_readFiles (o : Option Step) (n : String) :
    (o.getD ⟨n, []⟩).readFiles = (o.map Step.readFiles).getD [] := by
  cases o <;> rfl

/-- Effect of one `addAccess` in read mode. -/
lemma addAccess_R (g : DependencyGraph) (file name : String) :
    addAccess g "R" file name =
      ⟨assocUpdate g.steps name
        ⟨((assocLookup g.steps name).getD ⟨name, []⟩).name,
          insertRead (readsOf g name) file⟩, g.fileWriters⟩ := by
  simp [addAccess, readsOf, getD_readFiles]

/-- Effect of one `addAccess` in non-read mode. -/
lemma addAccess_W (g : DependencyGraph) {mode : String} (file name : String)
    (h : mode ≠ "R") :
    addAccess g mode file name =
      ⟨assocUpdate g.steps name ((assocLookup g.steps name).getD ⟨name, []⟩),
        appendWriter g.fileWriters file name⟩ := by
  simp [addAccess, h]

lemma cmdTreeName_ne_of_len {c1 c2 : List String}
    (h : c1.length ≠ c2.length) : cmdTreeName c1 ≠ cmdTreeName c2 :=
  fun he => h (congrArg List.length (cmdTreeName_inj he))

lemma ancestorChains_three (p1 p2 p3 : String) :
    ancestorChains [p1, p2, p3] = [[p1], [p1, p2], [p1, p2, p3]] := rfl

lemma addRecord_three (g : DependencyGraph) (p1 p2 p3 mode file : String) :
    addRecord g ⟨[p1, p2, p3], mode, file⟩ =
      addAccess (addAccess (addAccess g mode file (cmdTreeName [p1]))
        mode file (cmdTreeName [p1, p2])) mode file (cmdTreeName [p1, p2, p3]) :=
  rfl

lemma addRecord_nil (g : DependencyGraph) (mode file : String) :
    addRecord g ⟨[], mode, file⟩ = g := rfl

lemma lookup_addAccess_ne (g : DependencyGraph) (mode file name : String)
    {n : String} (h : n ≠ name) :
    assocLookup (addAccess g mode file name).steps n = assocLookup g.steps n := by
  by_cases hm : mode = "R"
  · subst hm
    rw [addAccess_R]
    exact assocLookup_update_ne _ _ h
  · rw [addAccess_W g file name hm]
    exact assocLookup_update_ne _ _ h

lemma readsOf_addAccess_ne (g : DependencyGraph) (mode file name : String)
    {n : String} (h : n ≠ name) :
    readsOf (addAccess g mode file name) n = readsOf g n := by
  unfold readsOf
  rw [lookup_addAccess_ne g mode file name h]

lemma readsOf_addAccess_R_self (g : DependencyGraph) (file name : String) :
    readsOf (addAccess g "R" file name) name = insertRead (readsOf g name) file := by
  rw [addAccess_R]
  unfold readsOf
  simp [assocLookup_update_self]

lemma lookup_addAccess_R_self (g : DependencyGraph) (file name : String) :
    (assocLookup (addAccess g "R" file name).steps name).isSome := by
  rw [addAccess_R]
  simp [assocLookup_update_self]

lemma readsOf_addAccess_W_self (g : DependencyGraph) {mode : String}
    (file name : String) (h : mode ≠ "R") :
    readsOf (addAccess g mode file name) name = readsOf g name := by
  unfold readsOf
  rw [addAccess_W g file name h]
  simp [assocLookup_update_self, getD_readFiles]

lemma lookup_addAccess_W_self (g : DependencyGraph) {mode : String}
    (file name : String) (h : mode ≠ "R") :
    (assocLookup (addAccess g mode file name).steps name).isSome := by
  rw [addAccess_W g file name h]
  simp [assocLookup_update_self]

lemma fw_addAccess_R (g : DependencyGraph) (file name : String) :
    (addAccess g "R" file name).fileWriters = g.fileWriters := by
  rw [addAccess_R]

lemma fw_addAccess_W (g : DependencyGraph) {mode : String} (file name : String)
    (h : mode ≠ "R") :
    (addAccess g mode file name).fileWriters =
      appendWriter g.fileWriters file name := by
  rw [addAccess_W g file name h]

/-- Claim C3: a record with ancestry `[p1,p2,p3]` records its access (the
read file in read mode, the writer entries otherwise) under exactly the three
steps named by the prefixes `[p1]`, `[p1,p2]`, `[p1,p2,p3]`, leaving every
other step entry untouched; a record with empty ancestry records nothing. -/
theorem C3_ancestor_propagation (g : DependencyGraph)
    (p1 p2 p3 mode file : String) :
    ((∀ n ∈ [cmdTreeName [p1], cmdTreeName [p1, p2], cmdTreeName [p1, p2, p3]],
        readsOf (addRecord g ⟨[p1, p2, p3], "R", file⟩) n =
          insertRead (readsOf g n) file ∧
        (assocLookup (addRecord g ⟨[p1, p2, p3], "R", file⟩).steps n).isSome) ∧
      (∀ n, n ∉ [cmdTreeName [p1], cmdTreeName [p1, p2],
          cmdTreeName [p1, p2, p3]] →
        assocLookup (addRecord g ⟨[p1, p2, p3], "R", file⟩).steps n =
          assocLookup g.steps n) ∧
      (addRecord g ⟨[p1, p2, p3], "R", file⟩).fileWriters = g.fileWriters) ∧
    (mode ≠ "R" →
      assocLookup (addRecord g ⟨[p1, p2, p3], mode, file⟩).fileWriters file =
        some (writersOf g file ++ [cmdTreeName [p1], cmdTreeName [p1, p2],
          cmdTreeName [p1, p2, p3]]) ∧
      (∀ f2, f2 ≠ file →
        assocLookup (addRecord g ⟨[p1, p2, p3], mode, file⟩).fileWriters f2 =
          assocLookup g.fileWriters f2) ∧
      (∀ n ∈ [cmdTreeName [p1], cmdTreeName [p1, p2], cmdTreeName [p1, p2, p3]],
        readsOf (addRecord g ⟨[p1, p2, p3], mode, file⟩) n = readsOf g n ∧
        (assocLookup (addRecord g ⟨[p1, p2, p3], mode, file⟩).steps n).isSome) ∧
      (∀ n, n ∉ [cmdTreeName [p1], cmdTreeName [p1, p2],
          cmdTreeName [p1, p2, p3]] →
        assocLookup (addRecord g ⟨[p1, p2, p3], mode, file⟩).steps n =
          assocLookup g.steps n)) ∧
    (∀ mode2 file2, addRecord g ⟨[], mode2, file2⟩ = g) := by
  have h31 : cmdTreeName [p1, p2, p3] ≠ cmdTreeName [p1] :=
    cmdTreeName_ne_of_len (by simp)
  have h32 : cmdTreeName [p1, p2, p3] ≠ cmdTreeName [p1, p2] :=
    cmdTreeName_ne_of_len (by simp)
  have h21 : cmdTreeName [p1, p2] ≠ cmdTreeName [p1] :=
    cmdTreeName_ne_of_len (by simp)
  refine ⟨⟨?_, ?_, ?_⟩, ?_, fun _ _ => rfl⟩
  · intro n hn
    rw [addRecord_three]
    simp only [List.mem_cons, List.not_mem_nil, or_false] at hn
    rcases hn with hn | hn | hn <;> subst hn
    · rw [readsOf_addAccess_ne _ _ _ _ (Ne.symm h31),
        readsOf_addAccess_ne _ _ _ _ (Ne.symm h21),
        readsOf_addAccess_R_self]
      refine ⟨rfl, ?_⟩
      rw [lookup_addAccess_ne _ _ _ _ (Ne.symm h31),
        lookup_addAccess_ne _ _ _ _ (Ne.symm h21)]
      exact lookup_addAccess_R_self g file _
    · rw [readsOf_addAccess_ne _ _ _ _ (Ne.symm h32),
        readsOf_addAccess_R_self, readsOf_addAccess_ne _ _ _ _ h21]
      refine ⟨rfl, ?_⟩
      rw [lookup_addAccess_ne _ _ _ _ (Ne.symm h32)]
      exact lookup_addAccess_R_self _ file _
    · rw [readsOf_addAccess_R_self, readsOf_addAccess_ne _ _ _ _ h32,
        readsOf_addAccess_ne _ _ _ _ h31]
      exact ⟨rfl, lookup_addAccess_R_self _ file _⟩
  · intro n hn
    simp only [List.mem_cons, List.not_mem_nil, or_false, not_or] at hn
    obtain ⟨hn1, hn2, hn3⟩ := hn
    rw [addRecord_three, lookup_addAccess_ne _ _ _ _ hn3,
      lookup_addAccess_ne _ _ _ _ hn2, lookup_addAccess_ne _ _ _ _ hn1]
  · rw [addRecord_three, fw_addAccess_R, fw_addAccess_R, fw_addAccess_R]
  · intro hm
    refine ⟨?_, ?_, ?_, ?_⟩
    · rw [addRecord_three, fw_addAccess_W _ _ _ hm, fw_addAccess_W _ _ _ hm,
        fw_addAccess_W _ _ _ hm, assocLookup_appendWriter_self,
        assocLookup_appendWriter_self, assocLookup_appendWriter_self]
      simp [writersOf]
    · intro f2 hf2
      rw [addRecord_three, fw_addAccess_W _ _ _ hm, fw_addAccess_W _ _ _ hm,
        fw_addAccess_W _ _ _ hm, assocLookup_appendWriter_ne _ _ hf2,
        assocLookup_appendWriter_ne _ _ hf2, assocLookup_appendWriter_ne _ _ hf2]
    · intro n hn
      rw [addRecord_three]
      simp only [List.mem_cons, List.not_mem_nil, or_false] at hn
      rcases hn with hn | hn | hn <;> subst hn
      · rw [readsOf_addAccess_ne _ _ _ _ (Ne.symm h31),
          readsOf_addAccess_ne _ _ _ _ (Ne.symm h21),
          readsOf_addAccess_W_self _ _ _ hm]
        refine ⟨rfl, ?_⟩
        rw [lookup_addAccess_ne _ _ _ _ (Ne.symm h31),
          lookup_addAccess_ne _ _ _ _ (Ne.symm h21)]
        exact lookup_addAccess_W_self g file _ hm
      · rw [readsOf_addAccess_ne _ _ _ _ (Ne.symm h32),
          readsOf_addAccess_W_self _ _ _ hm,
          readsOf_addAccess_ne _ _ _ _ h21]
        refine ⟨rfl, ?_⟩
        rw [lookup_addAccess_ne _ _ _ _ (Ne.symm h32)]
        exact lookup_addAccess_W_self _ file _ hm
      · rw [readsOf_addAccess_W_self _ _ _ hm,
          readsOf_addAccess_ne _ _ _ _ h32, readsOf_addAccess_ne _ _ _ _ h31]
        exact ⟨rfl, lookup_addAccess_W_self _ file _ hm⟩
    · intro n hn
      simp only [List.mem_cons, List.not_mem_nil, or_false, not_or] at hn
      obtain ⟨hn1, hn2, hn3⟩ := hn
      rw [addRecord_three, lookup_addAccess_ne _ _ _ _ hn3,
        lookup_addAccess_ne _ _ _ _ hn2, lookup_addAccess_ne _ _ _ _ hn1]

/-- Witness for C3 at a concrete record: the prefix names receive the read,
an unrelated name does not, and the non-read mode appends the three writer
entries. -/
theorem C3_ancestor_propagation_witness :
    readsOf (addRecord ⟨[], []⟩ ⟨["p1", "p2", "p3"], "R", "/f"⟩)
        (cmdTreeName ["p1", "p2"]) = ["/f"] ∧
    assocLookup (addRecord ⟨[], []⟩ ⟨["p1", "p2", "p3"], "W", "/f"⟩).fileWriters
        "/f" = some [cmdTreeName ["p1"], cmdTreeName ["p1", "p2"],
          cmdTreeName ["p1", "p2", "p3"]] ∧
    addRecord ⟨[], []⟩ ⟨[], "R", "/f"⟩ = (⟨[], []⟩ : DependencyGraph) := by
  have h := C3_ancestor_propagation ⟨[], []⟩ "p1" "p2" "p3" "W" "/f"
  refine ⟨?_, ?_, h.2.2 "R" "/f"⟩
  · have h2 := (h.1.1 (cmdTreeName ["p1", "p2"]) (by simp)).1
    rw [h2]
    rfl
  · have h3 := (h.2.1 (by decide)).1
    rw [h3]
    rfl

/-- Claim C4: step-name canonicalization is injective — two distinct
ancestries (token sequences), including ones whose tokens contain the comma
delimiter or quote characters, always canonicalize to different names. -/
theorem C4_canonicalization_injective (c1 c2 : List String) (h : c1 ≠ c2) :
    cmdTreeName c1 ≠ cmdTreeName c2 :=
  fun he => h (cmdTreeName_inj he)

/-- Witness for C4: a token containing the delimiter (`"a,b"` versus the
two tokens `"a"`, `"b"`) still yields distinct canonical names. -/
theorem C4_canonicalization_injective_witness :
    (["a,b"] : List String) ≠ ["a", "b"] ∧
      cmdTreeName ["a,b"] ≠ cmdTreeName ["a", "b"] :=
  ⟨by decide, C4_canonicalization_injective ["a,b"] ["a", "b"] (by decide)⟩

/-- Claim C5: querying a step name absent from the graph's step map yields
the distinguished unknown-step error (the Go triple `(false, "", err)` is the
`err` constructor here), for every changed-files collection. -/
theorem C5_unknown_step (cwd : String) (g : DependencyGraph)
    (c : List String) (fs : List String)
    (h : assocLookup g.steps (cmdTreeName c) = none) :
    StepDependsOnFiles cwd g c fs = .err ("unknown step: " ++ fmtStrSlice c) := by
  unfold StepDependsOnFiles
  rw [h]

/-- Witness for C5: the empty graph knows no step. -/
theorem C5_unknown_step_witness :
    StepDependsOnFiles "/w" ⟨[], []⟩ ["s"] ["/f"] =
      .err ("unknown step: " ++ fmtStrSlice ["s"]) :=
  C5_unknown_step "/w" ⟨[], []⟩ ["s"] ["/f"] rfl

lemma buildGraph_of_mem_none : ∀ (l : List (Option BuildLog))
    (g : DependencyGraph), none ∈ l → buildGraph g l = none := by
  intro l
  induction l with
  | nil => intro g h; simp at h
  | cons x rest ih =>
    intro g h
    cases x with
    | none => rfl
    | some b =>
      have : none ∈ rest := by simpa using h
      exact ih _ this

lemma buildGraph_of_all_some : ∀ (l : List (Option BuildLog))
    (g : DependencyGraph), (∀ x ∈ l, x.isSome) → (buildGraph g l).isSome := by
  intro l
  induction l with
  | nil => intro g _; rfl
  | cons x rest ih =>
    intro g h
    cases x with
    | none => exact absurd (h none (by simp)) (by simp)
    | some b => exact ih _ fun x hx => h x (by simp [hx])

/-- Claim C8: graph construction is all-or-nothing — any malformed record
makes `NewDependencyGraph` return an error and no graph, and a fully
well-formed stream (terminated by end of stream) always yields a graph. -/
theorem C8_all_or_nothing :
    (∀ input : List (Option BuildLog), none ∈ input →
      NewDependencyGraph input = none) ∧
    (∀ input : List (Option BuildLog), (∀ x ∈ input, x.isSome) →
      (NewDependencyGraph input).isSome) :=
  ⟨fun input h => buildGraph_of_mem_none input ⟨[], []⟩ h,
    fun input h => buildGraph_of_all_some input ⟨[], []⟩ h⟩

/-- Witness for C8: one malformed line kills the whole construction even
after a good record; the same good record alone builds a graph. -/
theorem C8_all_or_nothing_witness :
    NewDependencyGraph [some ⟨["s"], "R", "/f"⟩, none] = none ∧
      (NewDependencyGraph [some ⟨["s"], "R", "/f"⟩]).isSome :=
  ⟨C8_all_or_nothing.1 _ (by simp), C8_all_or_nothing.2 _ (by simp)⟩

lemma firstMatch_changed_nil : ∀ ds : List String, firstMatch ds [] = none := by
  intro ds
  induction ds with
  | nil => rfl
  | cons d rest ih => simpa [firstMatch] using ih

lemma queryLoop_changed_nil (g : DependencyGraph) (sname : String) :
    ∀ (reads : List String) (st : List String),
      queryLoop g sname [] reads st = .ok false "" := by
  intro reads
  induction reads with
  | nil => intro st; rfl
  | cons f rest ih =>
    intro st
    simp only [queryLoop, List.not_mem_nil, if_false]
    cases h : fileDeps g (queryFuel g) st f with
    | none => rfl
    | some p =>
      obtain ⟨ds, st1⟩ := p
      simp [firstMatch_changed_nil, ih]

lemma countP_le_subset {st st' : List String} (l : List String)
    (hsub : st ⊆ st') :
    l.countP (fun m => decide (m ∉ st')) ≤ l.countP (fun m => decide (m ∉ st)) := by
  induction l with
  | nil => simp
  | cons a rest ih =>
    rw [List.countP_cons, List.countP_cons]
    simp only [decide_eq_true_eq]
    have : (if a ∉ st' then 1 else 0) ≤ (if a ∉ st then 1 else 0) := by
      by_cases ha : a ∈ st
      · rw [if_neg (by simp [hsub ha]), if_neg (by simp [ha])]
      · rw [if_pos ha]
        split <;> omega
    omega

lemma countP_cons_lt {l : List String} {n : String} (hn : n ∈ l)
    (st : List String) (hnot : n ∉ st) :
    l.countP (fun m => decide (m ∉ n :: st)) <
      l.countP (fun m => decide (m ∉ st)) := by
  induction l with
  | nil => simp at hn
  | cons a rest ih =>
    rw [List.countP_cons, List.countP_cons]
    have hle := @countP_le_subset st (n :: st) rest
      (fun x hx => List.mem_cons_of_mem n hx)
    simp only [decide_eq_true_eq]
    by_cases ha : a = n
    · subst ha
      rw [if_neg (by simp), if_pos hnot]
      omega
    · rcases List.mem_cons.mp hn with he | hn'
      · exact absurd he.symm ha
      · have hlt := ih hn'
        have hind : (if a ∉ n :: st then 1 else 0) ≤ (if a ∉ st then 1 else 0) := by
          by_cases hst : a ∈ st
          · rw [if_neg (by simp [hst]), if_neg (by simp [hst])]
          · rw [if_pos (by simp [hst, ha]), if_pos hst]
        omega

lemma unmarked_le_subset (g : DependencyGraph) {st st' : List String}
    (h : st ⊆ st') : unmarked g st' ≤ unmarked g st :=
  countP_le_subset _ h

lemma unmarked_lt_mark (g : DependencyGraph) {n : String} {st : List String}
    (hn : n ∈ writerNames g) (hnot : n ∉ st) :
    unmarked g (n :: st) < unmarked g st :=
  countP_cons_lt hn st hnot

lemma unmarked_le_len (g : DependencyGraph) (st : List String) :
    unmarked g st ≤ (writerNames g).length :=
  List.countP_le_length _

lemma mem_foldr_of_assocLookup {fw : List (String × List String)} {f : String}
    {l : List String} (h : assocLookup fw f = some l) :
    ∀ n ∈ l, n ∈ fw.foldr (fun p acc => p.2 ++ acc) [] := by
  induction fw with
  | nil => simp [assocLookup] at h
  | cons p rest ih =>
    obtain ⟨k, v⟩ := p
    simp only [assocLookup] at h
    by_cases hk : k = f
    · rw [if_pos hk] at h
      injection h with h
      subst h
      intro n hn
      simp [hn]
    · rw [if_neg hk] at h
      intro n hn
      simp [ih h n hn]

lemma writersOf_subset_writerNames (g : DependencyGraph) (f : String) :
    ∀ n ∈ writersOf g f, n ∈ writerNames g := by
  intro n hn
  unfold writersOf at hn
  cases h : assocLookup g.fileWriters f with
  | none => rw [h] at hn; simp at hn
  | some l =>
    rw [h] at hn
    simp only [Option.getD_some] at hn
    exact List.mem_dedup.mpr (mem_foldr_of_assocLookup h n hn)

lemma fileDepsFiles_mono
    (frec : List String → String → Option (List String × List String))
    (hrec : ∀ st f ds st1, frec st f = some (ds, st1) → st ⊆ st1)
    (fp : String) :
    ∀ (l st : List String) (ds st1 : List String),
      fileDepsFiles frec fp st l = some (ds, st1) → st ⊆ st1 := by
  intro l
  induction l with
  | nil =>
    intro st ds st1 h
    simp only [fileDepsFiles, Option.some.injEq, Prod.mk.injEq] at h
    rw [← h.2]
    exact fun a ha => ha
  | cons x rest ih =>
    intro st ds st1 h
    simp only [fileDepsFiles] at h
    by_cases hx : x = fp
    · rw [if_pos hx] at h
      exact ih st ds st1 h
    · rw [if_neg hx] at h
      cases hr : frec st x with
      | none => rw [hr, Option.none_bind] at h; exact absurd h (by simp)
      | some p =>
        rw [hr, Option.some_bind, Option.map_eq_some'] at h
        obtain ⟨q, hq, hval⟩ := h
        have hsub1 : st ⊆ p.2 := hrec st x p.1 p.2 hr
        have hsub2 : p.2 ⊆ q.2 := ih p.2 q.1 q.2 hq
        have : q.2 = st1 := congrArg Prod.snd hval
        rw [← this]
        exact fun a ha => hsub2 (hsub1 ha)

lemma fileDepsWriters_mono (g : DependencyGraph)
    (frec : List String → String → Option (List String × List String))
    (hrec : ∀ st f ds st1, frec st f = some (ds, st1) → st ⊆ st1)
    (fp : String) :
    ∀ (ws st : List String) (ds st1 : List String),
      fileDepsWriters g frec fp st ws = some (ds, st1) → st ⊆ st1 := by
  intro ws
  induction ws with
  | nil =>
    intro st ds st1 h
    simp only [fileDepsWriters, Option.some.injEq, Prod.mk.injEq] at h
    rw [← h.2]
    exact fun a ha => ha
  | cons n ws' ih =>
    intro st ds st1 h
    simp only [fileDepsWriters] at h
    by_cases hn : n ∈ st
    · rw [if_pos hn] at h
      exact ih st ds st1 h
    · rw [if_neg hn] at h
      cases hf : fileDepsFiles frec fp (n :: st) (readsOf g n) with
      | none => rw [hf, Option.none_bind] at h; exact absurd h (by simp)
      | some p =>
        rw [hf, Option.some_bind, Option.map_eq_some'] at h
        obtain ⟨q, hq, hval⟩ := h
        have hsub1 : (n :: st) ⊆ p.2 :=
          fileDepsFiles_mono frec hrec fp _ _ p.1 p.2 hf
        have hsub2 : p.2 ⊆ q.2 := ih p.2 q.1 q.2 hq
        have : q.2 = st1 := congrArg Prod.snd hval
        rw [← this]
        exact fun a ha => hsub2 (hsub1 (List.mem_cons_of_mem n ha))

lemma fileDeps_mono (g : DependencyGraph) :
    ∀ (fuel : Nat) (st : List String) (f : String) (ds st1 : List String),
      fileDeps g fuel st f = some (ds, st1) → st ⊆ st1 := by
  intro fuel
  induction fuel with
  | zero => intro st f ds st1 h; exact absurd h (by simp [fileDeps])
  | succ fuel ih =>
    intro st f ds st1 h
    simp only [fileDeps] at h
    by_cases hig : f ∈ ignoreFiles
    · rw [if_pos hig] at h
      simp only [Option.some.injEq, Prod.mk.injEq] at h
      rw [← h.2]
      exact fun a ha => ha
    · rw [if_neg hig] at h
      exact fileDepsWriters_mono g (fileDeps g fuel)
        (fun st' f' ds' st1' hh => ih st' f' ds' st1' hh) f _ _ _ _ h

lemma fileDepsFiles_adeq (g : DependencyGraph)
    (frec : List String → String → Option (List String × List String))
    (fuel : Nat)
    (hA : ∀ st f, unmarked g st < fuel → (frec st f).isSome)
    (hM : ∀ st f ds st1, frec st f = some (ds, st1) → st ⊆ st1)
    (fp : String) :
    ∀ (l st : List String), unmarked g st < fuel →
      (fileDepsFiles frec fp st l).isSome := by
  intro l
  induction l with
  | nil => intro st _; simp [fileDepsFiles]
  | cons x rest ih =>
    intro st hst
    simp only [fileDepsFiles]
    by_cases hx : x = fp
    · rw [if_pos hx]
      exact ih st hst
    · rw [if_neg hx]
      cases hr : frec st x with
      | none => exact absurd (hA st x hst) (by simp [hr])
      | some p =>
        rw [Option.some_bind]
        have hsub := hM st x p.1 p.2 hr
        have hstA : unmarked g p.2 < fuel :=
          Nat.lt_of_le_of_lt (unmarked_le_subset g hsub) hst
        cases h2 : fileDepsFiles frec fp p.2 rest with
        | none => exact absurd (ih p.2 hstA) (by simp [h2])
        | some q => simp

lemma fileDepsWriters_adeq (g : DependencyGraph)
    (frec : List String → String → Option (List String × List String))
    (fuel : Nat)
    (hA : ∀ st f, unmarked g st < fuel → (frec st f).isSome)
    (hM : ∀ st f ds st1, frec st f = some (ds, st1) → st ⊆ st1)
    (fp : String) :
    ∀ (ws st : List String), (∀ n ∈ ws, n ∈ writerNames g) →
      unmarked g st ≤ fuel → (fileDepsWriters g frec fp st ws).isSome := by
  intro ws
  induction ws with
  | nil => intro st _ _; simp [fileDepsWriters]
  | cons n ws' ih =>
    intro st hws hst
    simp only [fileDepsWriters]
    by_cases hn : n ∈ st
    · rw [if_pos hn]
      exact ih st (fun m hm => hws m (List.mem_cons_of_mem n hm)) hst
    · rw [if_neg hn]
      have hnw : n ∈ writerNames g := hws n (List.mem_cons_self n ws')
      have hlt : unmarked g (n :: st) < fuel :=
        Nat.lt_of_lt_of_le (unmarked_lt_mark g hnw hn) hst
      cases hf : fileDepsFiles frec fp (n :: st) (readsOf g n) with
      | none =>
        exact absurd
          (fileDepsFiles_adeq g frec fuel hA hM fp (readsOf g n) (n :: st) hlt)
          (by simp [hf])
      | some p =>
        rw [Option.some_bind]
        have hsubA : (n :: st) ⊆ p.2 :=
          fileDepsFiles_mono frec hM fp _ _ p.1 p.2 hf
        have hstA : unmarked g p.2 ≤ fuel :=
          Nat.le_trans (unmarked_le_subset g hsubA) (Nat.le_of_lt hlt)
        cases h2 : fileDepsWriters g frec fp p.2 ws' with
        | none =>
          exact absurd
            (ih p.2 (fun m hm => hws m (List.mem_cons_of_mem n hm)) hstA)
            (by simp [h2])
        | some q => simp

lemma fileDeps_adeq (g : DependencyGraph) :
    ∀ (fuel : Nat) (st : List String) (f : String), unmarked g st < fuel →
      (fileDeps g fuel st f).isSome := by
  intro fuel
  induction fuel with
  | zero => intro st f h; omega
  | succ fuel ih =>
    intro st f h
    simp only [fileDeps]
    by_cases hig : f ∈ ignoreFiles
    · rw [if_pos hig]; simp
    · rw [if_neg hig]
      exact fileDepsWriters_adeq g (fileDeps g fuel) fuel ih
        (fun st' f' ds' st1' hh => fileDeps_mono g fuel st' f' ds' st1' hh) f
        (writersOf g f) st (writersOf_subset_writerNames g f)
        (Nat.le_of_lt_succ h)

lemma fileDepsFiles_sound (g : DependencyGraph)
    (frec : List String → String → Option (List String × List String))
    (fp : String)
    (hrec : ∀ st x ds st1, frec st x = some (ds, st1) → ∀ d ∈ ds, Reach g x d) :
    ∀ (l st ds st1 : List String), (∀ x ∈ l, x = fp ∨ Edge g fp x) →
      fileDepsFiles frec fp st l = some (ds, st1) → ∀ d ∈ ds, Reach g fp d := by
  intro l
  induction l with
  | nil =>
    intro st ds st1 _ h
    simp only [fileDepsFiles, Option.some.injEq, Prod.mk.injEq] at h
    rw [← h.1]
    intro d hd
    simp at hd
  | cons x rest ih =>
    intro st ds st1 hl h
    simp only [fileDepsFiles] at h
    by_cases hx : x = fp
    · rw [if_pos hx] at h
      exact ih st ds st1 (fun y hy => hl y (List.mem_cons_of_mem x hy)) h
    · rw [if_neg hx] at h
      cases hr : frec st x with
      | none => rw [hr, Option.none_bind] at h; exact absurd h (by simp)
      | some p =>
        rw [hr, Option.some_bind, Option.map_eq_some'] at h
        obtain ⟨q, hq, hval⟩ := h
        have hds : x :: (p.1 ++ q.1) = ds := congrArg Prod.fst hval
        have hedge : Edge g fp x := by
          rcases hl x (List.mem_cons_self x rest) with he | he
          · exact absurd he hx
          · exact he
        intro d hd
        rw [← hds] at hd
        rcases List.mem_cons.mp hd with rfl | hd'
        · exact Relation.TransGen.single hedge
        · rcases List.mem_append.mp hd' with hd1 | hd2
          · exact Relation.TransGen.head hedge (hrec st x p.1 p.2 hr d hd1)
          · exact ih p.2 q.1 q.2
              (fun y hy => hl y (List.mem_cons_of_mem x hy)) hq d hd2

lemma fileDepsWriters_sound (g : DependencyGraph)
    (frec : List String → String → Option (List String × List String))
    (fp : String) (hig : fp ∉ ignoreFiles)
    (hrec : ∀ st x ds st1, frec st x = some (ds, st1) → ∀ d ∈ ds, Reach g x d) :
    ∀ (ws st ds st1 : List String), (∀ n ∈ ws, n ∈ writersOf g fp) →
      fileDepsWriters g frec fp st ws = some (ds, st1) →
      ∀ d ∈ ds, Reach g fp d := by
  intro ws
  induction ws with
  | nil =>
    intro st ds st1 _ h
    simp only [fileDepsWriters, Option.some.injEq, Prod.mk.injEq] at h
    rw [← h.1]
    intro d hd
    simp at hd
  | cons n ws' ih =>
    intro st ds st1 hws h
    simp only [fileDepsWriters] at h
    by_cases hn : n ∈ st
    · rw [if_pos hn] at h
      exact ih st ds st1 (fun m hm => hws m (List.mem_cons_of_mem n hm)) h
    · rw [if_neg hn] at h
      cases hf : fileDepsFiles frec fp (n :: st) (readsOf g n) with
      | none => rw [hf, Option.none_bind] at h; exact absurd h (by simp)
      | some p =>
        rw [hf, Option.some_bind, Option.map_eq_some'] at h
        obtain ⟨q, hq, hval⟩ := h
        have hds : p.1 ++ q.1 = ds := congrArg Prod.fst hval
        have hl : ∀ x ∈ readsOf g n, x = fp ∨ Edge g fp x := by
          intro x hx
          by_cases hxf : x = fp
          · exact Or.inl hxf
          · exact Or.inr ⟨hig, n, hws n (List.mem_cons_self n ws'), hx, hxf⟩
        intro d hd
        rw [← hds] at hd
        rcases List.mem_append.mp hd with hd1 | hd2
        · exact fileDepsFiles_sound g frec fp hrec _ _ p.1 p.2 hl hf d hd1
        · exact ih p.2 q.1 q.2
            (fun m hm => hws m (List.mem_cons_of_mem n hm)) hq d hd2

lemma fileDeps_sound (g : DependencyGraph) :
    ∀ (fuel : Nat) (st : List String) (f : String) (ds st1 : List String),
      fileDeps g fuel st f = some (ds, st1) → ∀ d ∈ ds, Reach g f d := by
  intro fuel
  induction fuel with
  | zero => intro st f ds st1 h; exact absurd h (by simp [fileDeps])
  | succ fuel ih =>
    intro st f ds st1 h
    simp only [fileDeps] at h
    by_cases hig : f ∈ ignoreFiles
    · rw [if_pos hig] at h
      simp only [Option.some.injEq, Prod.mk.injEq] at h
      rw [← h.1]
      intro d hd
      simp at hd
    · rw [if_neg hig] at h
      exact fileDepsWriters_sound g (fileDeps g fuel) f hig
        (fun st' x ds' st1' hh => ih st' x ds' st1' hh) _ _ _ _
        (fun n hn => hn) h

lemma MIexc_mono_E {g : DependencyGraph} {E E' X st : List String}
    (hsub : E ⊆ E') (h : MIexc g E X st) : MIexc g E' X st := by
  intro n hn
  rcases h n hn with hx | hr
  · exact Or.inl hx
  · exact Or.inr fun r hrr => hsub (hr r hrr)

lemma fileDepsFiles_inv (g : DependencyGraph)
    (frec : List String → String → Option (List String × List String))
    (hrecI : ∀ st f ds st1 E X, frec st f = some (ds, st1) →
      MIexc g E X st → f ∈ E →
      MIexc g (E ++ ds) X st1 ∧
      (f ∉ ignoreFiles → ∀ n ∈ writersOf g f, n ∈ st1) ∧
      (∀ d ∈ ds, d ∉ ignoreFiles → ∀ n ∈ writersOf g d, n ∈ st1))
    (hrecM : ∀ st f ds st1, frec st f = some (ds, st1) → st ⊆ st1)
    (fp : String) :
    ∀ (l st ds st1 E X : List String),
      fileDepsFiles frec fp st l = some (ds, st1) →
      MIexc g E X st → fp ∈ E →
      MIexc g (E ++ ds) X st1 ∧
      (∀ x ∈ l, x = fp ∨ x ∈ ds) ∧
      (∀ d ∈ ds, d ∉ ignoreFiles → ∀ n ∈ writersOf g d, n ∈ st1) := by
  intro l
  induction l with
  | nil =>
    intro st ds st1 E X h hMI _
    simp only [fileDepsFiles, Option.some.injEq, Prod.mk.injEq] at h
    rw [← h.1, ← h.2]
    refine ⟨by simpa using hMI, ?_, ?_⟩
    · intro x hx; simp at hx
    · intro d hd; simp at hd
  | cons x rest ih =>
    intro st ds st1 E X h hMI hfp
    simp only [fileDepsFiles] at h
    by_cases hx : x = fp
    · rw [if_pos hx] at h
      obtain ⟨r1, r2, r3⟩ := ih st ds st1 E X h hMI hfp
      refine ⟨r1, ?_, r3⟩
      intro y hy
      rcases List.mem_cons.mp hy with rfl | hy'
      · exact Or.inl hx
      · exact r2 y hy'
    · rw [if_neg hx] at h
      cases hr : frec st x with
      | none => rw [hr, Option.none_bind] at h; exact absurd h (by simp)
      | some p =>
        rw [hr, Option.some_bind, Option.map_eq_some'] at h
        obtain ⟨q, hq, hval⟩ := h
        have hds : x :: (p.1 ++ q.1) = ds := congrArg Prod.fst hval
        have hst1 : q.2 = st1 := congrArg Prod.snd hval
        have hMI1 : MIexc g (E ++ [x]) X st :=
          MIexc_mono_E (fun a ha => List.mem_append_left _ ha) hMI
        obtain ⟨A1, A2, A3⟩ :=
          hrecI st x p.1 p.2 (E ++ [x]) X hr hMI1
            (List.mem_append_right E (List.mem_singleton.mpr rfl))
        obtain ⟨B1, B2, B3⟩ :=
          ih p.2 q.1 q.2 ((E ++ [x]) ++ p.1) X hq A1
            (List.mem_append_left _ (List.mem_append_left _ hfp))
        have hmono2 : p.2 ⊆ q.2 := fileDepsFiles_mono frec hrecM fp rest p.2 q.1 q.2 hq
        rw [← hds, ← hst1]
        refine ⟨?_, ?_, ?_⟩
        · have : E ++ x :: (p.1 ++ q.1) = (((E ++ [x]) ++ p.1) ++ q.1) := by
            simp
          rw [this]
          exact B1
        · intro y hy
          rcases List.mem_cons.mp hy with rfl | hy'
          · exact Or.inr (List.mem_cons_self _ _)
          · rcases B2 y hy' with hyf | hyq
            · exact Or.inl hyf
            · exact Or.inr (List.mem_cons_of_mem _
                (List.mem_append_right _ hyq))
        · intro d hd hdig n hnw
          rcases List.mem_cons.mp hd with rfl | hd'
          · exact hmono2 (A2 hdig n hnw)
          · rcases List.mem_append.mp hd' with hd1 | hd2
            · exact hmono2 (A3 d hd1 hdig n hnw)
            · exact B3 d hd2 hdig n hnw

lemma fileDepsWriters_inv (g : DependencyGraph)
    (frec : List String → String → Option (List String × List String))
    (hrecI : ∀ st f ds st1 E X, frec st f = some (ds, st1) →
      MIexc g E X st → f ∈ E →
      MIexc g (E ++ ds) X st1 ∧
      (f ∉ ignoreFiles → ∀ n ∈ writersOf g f, n ∈ st1) ∧
      (∀ d ∈ ds, d ∉ ignoreFiles → ∀ n ∈ writersOf g d, n ∈ st1))
    (hrecM : ∀ st f ds st1, frec st f = some (ds, st1) → st ⊆ st1)
    (fp : String) :
    ∀ (ws st ds st1 E X : List String),
      fileDepsWriters g frec fp st ws = some (ds, st1) →
      MIexc g E X st → fp ∈ E →
      MIexc g (E ++ ds) X st1 ∧
      (∀ n ∈ ws, n ∈ st1) ∧
      (∀ d ∈ ds, d ∉ ignoreFiles → ∀ n ∈ writersOf g d, n ∈ st1) := by
  intro ws
  induction ws with
  | nil =>
    intro st ds st1 E X h hMI _
    simp only [fileDepsWriters, Option.some.injEq, Prod.mk.injEq] at h
    rw [← h.1, ← h.2]
    refine ⟨by simpa using hMI, ?_, ?_⟩
    · intro n hn; simp at hn
    · intro d hd; simp at hd
  | cons n ws' ih =>
    intro st ds st1 E X h hMI hfp
    simp only [fileDepsWriters] at h
    by_cases hn : n ∈ st
    · rw [if_pos hn] at h
      obtain ⟨r1, r2, r3⟩ := ih st ds st1 E X h hMI hfp
      have hsub : st ⊆ st1 :=
        fileDepsWriters_mono g frec hrecM fp ws' st ds st1 h
      refine ⟨r1, ?_, r3⟩
      intro m hm
      rcases List.mem_cons.mp hm with rfl | hm'
      · exact hsub hn
      · exact r2 m hm'
    · rw [if_neg hn] at h
      cases hf : fileDepsFiles frec fp (n :: st) (readsOf g n) with
      | none => rw [hf, Option.none_bind] at h; exact absurd h (by simp)
      | some p =>
        rw [hf, Option.some_bind, Option.map_eq_some'] at h
        obtain ⟨q, hq, hval⟩ := h
        have hds : p.1 ++ q.1 = ds := congrArg Prod.fst hval
        have hst1 : q.2 = st1 := congrArg Prod.snd hval
        have hMIx : MIexc g E (n :: X) (n :: st) := by
          intro m hm
          rcases List.mem_cons.mp hm with rfl | hm'
          · exact Or.inl (List.mem_cons_self _ _)
          · rcases hMI m hm' with hmx | hmr
            · exact Or.inl (List.mem_cons_of_mem _ hmx)
            · exact Or.inr hmr
        obtain ⟨C1, C2, C3⟩ :=
          fileDepsFiles_inv g frec hrecI hrecM fp (readsOf g n) (n :: st)
            p.1 p.2 E (n :: X) hf hMIx hfp
        have D1 : MIexc g (E ++ p.1) X p.2 := by
          intro m hm
          rcases C1 m hm with hmx | hmr
          · rcases List.mem_cons.mp hmx with rfl | hmx'
            · refine Or.inr ?_
              intro r hrr
              rcases C2 r hrr with hrf | hrd
              · rw [hrf]; exact List.mem_append_left _ hfp
              · exact List.mem_append_right _ hrd
            · exact Or.inl hmx'
          · exact Or.inr hmr
        obtain ⟨E1, E2c, E3⟩ :=
          ih p.2 q.1 q.2 (E ++ p.1) X hq D1 (List.mem_append_left _ hfp)
        have hmonoF : (n :: st) ⊆ p.2 :=
          fileDepsFiles_mono frec hrecM fp (readsOf g n) (n :: st) p.1 p.2 hf
        have hmonoW : p.2 ⊆ q.2 :=
          fileDepsWriters_mono g frec hrecM fp ws' p.2 q.1 q.2 hq
        rw [← hds, ← hst1]
        refine ⟨?_, ?_, ?_⟩
        · rw [← List.append_assoc]
          exact E1
        · intro m hm
          rcases List.mem_cons.mp hm with rfl | hm'
          · exact hmonoW (hmonoF (List.mem_cons_self _ _))
          · exact E2c m hm'
        · intro d hd hdig m hmw
          rcases List.mem_append.mp hd with hd1 | hd2
          · exact hmonoW (C3 d hd1 hdig m hmw)
          · exact E3 d hd2 hdig m hmw

lemma fileDeps_inv (g : DependencyGraph) :
    ∀ (fuel : Nat) (st : List String) (f : String) (ds st1 E X : List String),
      fileDeps g fuel st f = some (ds, st1) →
      MIexc g E X st → f ∈ E →
      MIexc g (E ++ ds) X st1 ∧
      (f ∉ ignoreFiles → ∀ n ∈ writersOf g f, n ∈ st1) ∧
      (∀ d ∈ ds, d ∉ ignoreFiles → ∀ n ∈ writersOf g d, n ∈ st1) := by
  intro fuel
  induction fuel with
  | zero => intro st f ds st1 E X h; exact absurd h (by simp [fileDeps])
  | succ fuel ih =>
    intro st f ds st1 E X h hMI hfE
    simp only [fileDeps] at h
    by_cases hig : f ∈ ignoreFiles
    · rw [if_pos hig] at h
      simp only [Option.some.injEq, Prod.mk.injEq] at h
      rw [← h.1, ← h.2]
      refine ⟨by simpa using hMI, fun hc => absurd hig hc, ?_⟩
      intro d hd; simp at hd
    · rw [if_neg hig] at h
      obtain ⟨r1, r2, r3⟩ :=
        fileDepsWriters_inv g (fileDeps g fuel) ih (fileDeps_mono g fuel) f
          (writersOf g f) st ds st1 E X h hMI hfE
      exact ⟨r1, fun _ => r2, r3⟩

lemma firstMatch_eq_none {ds changed : List String}
    (h : firstMatch ds changed = none) : ∀ d ∈ ds, d ∉ changed := by
  induction ds with
  | nil => intro d hd; simp at hd
  | cons d0 rest ih =>
    intro d hd
    simp only [firstMatch] at h
    by_cases hd0 : d0 ∈ changed
    · rw [if_pos hd0] at h; exact absurd h (by simp)
    · rw [if_neg hd0] at h
      rcases List.mem_cons.mp hd with rfl | hd'
      · exact hd0
      · exact ih h d hd'

lemma firstMatch_eq_some {ds changed : List String} {d : String}
    (h : firstMatch ds changed = some d) : d ∈ ds ∧ d ∈ changed := by
  induction ds with
  | nil => simp [firstMatch] at h
  | cons d0 rest ih =>
    simp only [firstMatch] at h
    by_cases hd0 : d0 ∈ changed
    · rw [if_pos hd0] at h
      injection h with h
      subst h
      exact ⟨List.mem_cons_self _ _, hd0⟩
    · rw [if_neg hd0] at h
      obtain ⟨h1, h2⟩ := ih h
      exact ⟨List.mem_cons_of_mem _ h1, h2⟩

lemma queryLoop_cases (g : DependencyGraph) (sname : String)
    (changed : List String) : ∀ (reads st : List String),
    (∃ rs, queryLoop g sname changed reads st = .ok true rs) ∨
      queryLoop g sname changed reads st = .ok false "" := by
  intro reads
  induction reads with
  | nil => intro st; exact Or.inr rfl
  | cons f rest ih =>
    intro st
    by_cases hfc : f ∈ changed
    · exact Or.inl ⟨directReason sname f, by simp [queryLoop, hfc]⟩
    · cases hfd : fileDeps g (queryFuel g) st f with
      | none => exact Or.inr (by simp [queryLoop, hfc, hfd])
      | some p =>
        obtain ⟨ds, st1⟩ := p
        cases hfm : firstMatch ds changed with
        | some d =>
          exact Or.inl ⟨transReason sname d, by simp [queryLoop, hfc, hfd, hfm]⟩
        | none =>
          rcases ih st1 with ⟨rs, hrs⟩ | hno
          · exact Or.inl ⟨rs, by simp [queryLoop, hfc, hfd, hfm, hrs]⟩
          · exact Or.inr (by simp [queryLoop, hfc, hfd, hfm, hno])

lemma queryLoop_true_sem (g : DependencyGraph) (sname : String)
    (changed : List String) : ∀ (reads st : List String) (rs : String),
    queryLoop g sname changed reads st = .ok true rs →
    ∃ f ∈ reads, f ∈ changed ∨ ∃ r, Reach g f r ∧ r ∈ changed := by
  intro reads
  induction reads with
  | nil => intro st rs h; exact absurd h (by simp [queryLoop])
  | cons f rest ih =>
    intro st rs h
    by_cases hfc : f ∈ changed
    · exact ⟨f, List.mem_cons_self _ _, Or.inl hfc⟩
    · simp only [queryLoop, if_neg hfc] at h
      cases hfd : fileDeps g (queryFuel g) st f with
      | none => simp only [hfd] at h; exact absurd h (by simp)
      | some p =>
        obtain ⟨ds, st1⟩ := p
        simp only [hfd] at h
        cases hfm : firstMatch ds changed with
        | some d =>
          obtain ⟨hd1, hd2⟩ := firstMatch_eq_some hfm
          exact ⟨f, List.mem_cons_self _ _,
            Or.inr ⟨d, fileDeps_sound g _ _ _ _ _ hfd d hd1, hd2⟩⟩
        | none =>
          simp only [hfm] at h
          obtain ⟨f', hf', hc⟩ := ih st1 rs h
          exact ⟨f', List.mem_cons_of_mem _ hf', hc⟩

lemma queryLoop_false_inv (g : DependencyGraph) (sname : String)
    (changed : List String) : ∀ (reads st E : List String),
    queryLoop g sname changed reads st = .ok false "" →
    MIexc g E [] st →
    (∀ x ∈ E, x ∉ changed) →
    (∀ x ∈ E, x ∉ ignoreFiles → ∀ n ∈ writersOf g x, n ∈ st) →
    ∃ E' st', E ⊆ E' ∧ MIexc g E' [] st' ∧ (∀ x ∈ E', x ∉ changed) ∧
      (∀ x ∈ E', x ∉ ignoreFiles → ∀ n ∈ writersOf g x, n ∈ st') ∧
      (∀ f ∈ reads, f ∈ E') := by
  intro reads
  induction reads with
  | nil =>
    intro st E _ hMI hnc hcl
    exact ⟨E, st, fun a ha => ha, hMI, hnc, hcl, fun f hf => absurd hf (by simp)⟩
  | cons f rest ih =>
    intro st E h hMI hnc hcl
    by_cases hfc : f ∈ changed
    · rw [show queryLoop g sname changed (f :: rest) st =
          .ok true (directReason sname f) by simp [queryLoop, hfc]] at h
      exact absurd h (by simp)
    · simp only [queryLoop, if_neg hfc] at h
      cases hfd : fileDeps g (queryFuel g) st f with
      | none =>
        have := fileDeps_adeq g (queryFuel g) st f
          (Nat.lt_succ_of_le (unmarked_le_len g st))
        rw [hfd] at this
        exact absurd this (by simp)
      | some p =>
        obtain ⟨ds, st1⟩ := p
        simp only [hfd] at h
        cases hfm : firstMatch ds changed with
        | some d => simp only [hfm] at h; exact absurd h (by simp)
        | none =>
          simp only [hfm] at h
          have hdnc := firstMatch_eq_none hfm
          have hMI1 : MIexc g (E ++ [f]) [] st :=
            MIexc_mono_E (fun a ha => List.mem_append_left _ ha) hMI
          obtain ⟨I1, I2, I3⟩ :=
            fileDeps_inv g (queryFuel g) st f ds st1 (E ++ [f]) [] hfd hMI1
              (List.mem_append_right E (List.mem_singleton.mpr rfl))
          have hmono : st ⊆ st1 := fileDeps_mono g (queryFuel g) st f ds st1 hfd
          have hnc2 : ∀ x ∈ (E ++ [f]) ++ ds, x ∉ changed := by
            intro x hx
            rcases List.mem_append.mp hx with hx1 | hx2
            · rcases List.mem_append.mp hx1 with hxE | hxf
              · exact hnc x hxE
              · rw [List.mem_singleton.mp hxf]; exact hfc
            · exact hdnc x hx2
          have hcl2 : ∀ x ∈ (E ++ [f]) ++ ds, x ∉ ignoreFiles →
              ∀ n ∈ writersOf g x, n ∈ st1 := by
            intro x hx hxig n hnw
            rcases List.mem_append.mp hx with hx1 | hx2
            · rcases List.mem_append.mp hx1 with hxE | hxf
              · exact hmono (hcl x hxE hxig n hnw)
              · rw [List.mem_singleton.mp hxf] at hxig hnw
                exact I2 hxig n hnw
            · exact I3 x hx2 hxig n hnw
          obtain ⟨E', st', r0, r1, r2, r3, r4⟩ :=
            ih st1 ((E ++ [f]) ++ ds) h I1 hnc2 hcl2
          refine ⟨E', st',
            fun a ha => r0 (List.mem_append_left _ (List.mem_append_left _ ha)),
            r1, r2, r3, ?_⟩
          intro f0 hf0
          rcases List.mem_cons.mp hf0 with rfl | hf0'
          · exact r0 (List.mem_append_left _
              (List.mem_append_right E (List.mem_singleton.mpr rfl)))
          · exact r4 f0 hf0'

lemma edge_closed {g : DependencyGraph} {E st : List String}
    (hMI : MIexc g E [] st)
    (hcl : ∀ x ∈ E, x ∉ ignoreFiles → ∀ n ∈ writersOf g x, n ∈ st)
    {x r : String} (hx : x ∈ E) (he : Edge g x r) : r ∈ E := by
  obtain ⟨hig, n, hnw, hrr, -⟩ := he
  have hst := hcl x hx hig n hnw
  rcases hMI n hst with h0 | hreads
  · simp at h0
  · exact hreads r hrr

lemma reach_closed {g : DependencyGraph} {E st : List String}
    (hMI : MIexc g E [] st)
    (hcl : ∀ x ∈ E, x ∉ ignoreFiles → ∀ n ∈ writersOf g x, n ∈ st)
    {x r : String} (hre : Reach g x r) : x ∈ E → r ∈ E := by
  induction hre with
  | single h => exact fun hx => edge_closed hMI hcl hx h
  | tail hab hbc ih => exact fun hx => edge_closed hMI hcl (ih hx) hbc

lemma queryLoop_false_sem (g : DependencyGraph) (sname : String)
    (changed reads : List String)
    (h : queryLoop g sname changed reads [] = .ok false "") :
    ¬ semMatch g reads changed := by
  obtain ⟨E', st', -, hMI, hnc, hcl, hreads⟩ :=
    queryLoop_false_inv g sname changed reads [] [] h
      (fun n hn => absurd hn (by simp)) (fun x hx => absurd hx (by simp))
      (fun x hx => absurd hx (by simp))
  rintro ⟨f, hf, hcase⟩
  rcases hcase with hfc | ⟨r, hre, hrc⟩
  · exact hnc f (hreads f hf) hfc
  · exact hnc r (reach_closed hMI hcl hre (hreads f hf)) hrc

/-- Semantic characterization of a found-step query: true answers coincide
with a semantic match, false answers with its absence. -/
lemma stepDepends_char (cwd : String) (g : DependencyGraph) (c fs : List String)
    {s : Step} (hlook : assocLookup g.steps (cmdTreeName c) = some s) :
    ((∃ rs, StepDependsOnFiles cwd g c fs = .ok true rs) ↔
      semMatch g s.readFiles (fs.map (absoluteNodePath cwd))) ∧
    (StepDependsOnFiles cwd g c fs = .ok false "" ↔
      ¬ semMatch g s.readFiles (fs.map (absoluteNodePath cwd))) := by
  have hq : StepDependsOnFiles cwd g c fs =
      queryLoop g s.name (fs.map (absoluteNodePath cwd)) s.readFiles [] := by
    simp [StepDependsOnFiles, hlook]
  rcases queryLoop_cases g s.name (fs.map (absoluteNodePath cwd))
      s.readFiles [] with ⟨rs, hrs⟩ | hno
  · have hsem := queryLoop_true_sem g s.name (fs.map (absoluteNodePath cwd))
      s.readFiles [] rs hrs
    constructor
    · constructor
      · intro _
        exact hsem
      · intro _
        exact ⟨rs, by rw [hq]; exact hrs⟩
    · constructor
      · intro hfalse
        rw [hq, hrs] at hfalse
        exact absurd hfalse (by simp)
      · intro hnsem
        exact absurd hsem hnsem
  · have hnsem := queryLoop_false_sem g s.name (fs.map (absoluteNodePath cwd))
      s.readFiles hno
    constructor
    · constructor
      · rintro ⟨rs, hrs⟩
        rw [hq, hno] at hrs
        exact absurd hrs (by simp)
      · intro hsem
        exact absurd hsem hnsem
    · constructor
      · intro _
        exact hnsem
      · intro _
        rw [hq]
        exact hno

lemma graphEquiv_writersOf {g1 g2 : DependencyGraph} (h : graphEquiv g1 g2) :
    ∀ f, writersOf g1 f = writersOf g2 f := by
  intro f
  unfold writersOf
  rw [h.1]

lemma graphEquiv_readsOf_mem {g1 g2 : DependencyGraph} (h : graphEquiv g1 g2) :
    ∀ n x, x ∈ readsOf g1 n ↔ x ∈ readsOf g2 n := by
  intro n x
  rcases h.2 n with ⟨h1, h2⟩ | ⟨s1, s2, h1, h2, -, hperm⟩
  · unfold readsOf
    rw [h1, h2]
  · unfold readsOf
    rw [h1, h2]
    exact hperm.mem_iff

lemma graphEquiv_edge {g1 g2 : DependencyGraph} (h : graphEquiv g1 g2) :
    ∀ a b, Edge g1 a b ↔ Edge g2 a b := by
  intro a b
  unfold Edge
  rw [graphEquiv_writersOf h a]
  constructor
  · rintro ⟨hig, n, hn, hb, hne⟩
    exact ⟨hig, n, hn, (graphEquiv_readsOf_mem h n b).mp hb, hne⟩
  · rintro ⟨hig, n, hn, hb, hne⟩
    exact ⟨hig, n, hn, (graphEquiv_readsOf_mem h n b).mpr hb, hne⟩

lemma graphEquiv_reach {g1 g2 : DependencyGraph} (h : graphEquiv g1 g2)
    {a b : String} (hre : Reach g1 a b) : Reach g2 a b := by
  induction hre with
  | single he => exact Relation.TransGen.single ((graphEquiv_edge h _ _).mp he)
  | tail hab hbc ih =>
    exact Relation.TransGen.tail ih ((graphEquiv_edge h _ _).mp hbc)

lemma graphEquiv_symm {g1 g2 : DependencyGraph} (h : graphEquiv g1 g2) :
    graphEquiv g2 g1 := by
  refine ⟨h.1.symm, ?_⟩
  intro n
  rcases h.2 n with ⟨h1, h2⟩ | ⟨s1, s2, h1, h2, hn, hperm⟩
  · exact Or.inl ⟨h2, h1⟩
  · exact Or.inr ⟨s2, s1, h2, h1, hn.symm, hperm.symm⟩

lemma graphEquiv_semMatch {g1 g2 : DependencyGraph} (h : graphEquiv g1 g2)
    {r1 r2 changed : List String} (hperm : r1.Perm r2)
    (hm : semMatch g1 r1 changed) : semMatch g2 r2 changed := by
  obtain ⟨f, hf, hcase⟩ := hm
  refine ⟨f, hperm.mem_iff.mp hf, ?_⟩
  rcases hcase with hfc | ⟨r, hre, hrc⟩
  · exact Or.inl hfc
  · exact Or.inr ⟨r, graphEquiv_reach h hre, hrc⟩

lemma ce_equiv : graphEquiv G1ce G2ce := by
  constructor
  · decide
  · intro n
    by_cases h : cmdTreeName ["s"] = n
    · refine Or.inr ⟨⟨cmdTreeName ["s"], ["/a", "/b"]⟩,
        ⟨cmdTreeName ["s"], ["/b", "/a"]⟩, ?_, ?_, rfl, ?_⟩
      · rw [← h]; decide
      · rw [← h]; decide
      · exact List.Perm.swap "/b" "/a" []
    · refine Or.inl ⟨?_, ?_⟩
      · have hs : G1ce.steps =
            [(cmdTreeName ["s"], ⟨cmdTreeName ["s"], ["/a", "/b"]⟩)] := by
          decide
        rw [hs]
        simp [assocLookup, h]
      · have hs : G2ce.steps =
            [(cmdTreeName ["s"], ⟨cmdTreeName ["s"], ["/b", "/a"]⟩)] := by
          decide
        rw [hs]
        simp [assocLookup, h]

/-- Counterexample to C9 as stated: `G1ce` and `G2ce` hold the same Go map
contents (same step, same read-file set, no writers) and differ only in the
enumeration order of the `readFiles` map — an order Go randomizes between
`range` loops — yet the same query returns different reason strings (both
with verdict true), so repeated runs of `StepDependsOnFiles` on the same
graph need not return identical reason strings when several files match. -/
theorem C9_determinism_counterexample :
    graphEquiv G1ce G2ce ∧
    verdict (StepDependsOnFiles "/w" G1ce ["s"] ["/a", "/b"]) = some true ∧
    verdict (StepDependsOnFiles "/w" G2ce ["s"] ["/a", "/b"]) = some true ∧
    StepDependsOnFiles "/w" G1ce ["s"] ["/a", "/b"] ≠
      StepDependsOnFiles "/w" G2ce ["s"] ["/a", "/b"] :=
  ⟨ce_equiv, by decide, by decide, by decide⟩

/-- Amended C9: the boolean verdict and the error are deterministic — they
agree across all enumeration orders of the read-file maps (`graphEquiv`) —
while the reason string may differ when several files match. -/
theorem C9_determinism_amended (g1 g2 : DependencyGraph) (cwd : String)
    (c fs : List String) (h : graphEquiv g1 g2) :
    agreeBoolErr (StepDependsOnFiles cwd g1 c fs)
      (StepDependsOnFiles cwd g2 c fs) := by
  rcases h.2 (cmdTreeName c) with ⟨h1, h2⟩ | ⟨s1, s2, h1, h2, hn, hperm⟩
  · have e1 : StepDependsOnFiles cwd g1 c fs =
        .err ("unknown step: " ++ fmtStrSlice c) := by
      simp [StepDependsOnFiles, h1]
    have e2 : StepDependsOnFiles cwd g2 c fs =
        .err ("unknown step: " ++ fmtStrSlice c) := by
      simp [StepDependsOnFiles, h2]
    rw [e1, e2]
    exact rfl
  · obtain ⟨ch1, ch2⟩ := stepDepends_char cwd g1 c fs h1
    obtain ⟨ch1', ch2'⟩ := stepDepends_char cwd g2 c fs h2
    by_cases hsem : semMatch g1 s1.readFiles (fs.map (absoluteNodePath cwd))
    · obtain ⟨rs1, hrs1⟩ := ch1.mpr hsem
      obtain ⟨rs2, hrs2⟩ := ch1'.mpr (graphEquiv_semMatch h hperm hsem)
      rw [hrs1, hrs2]
      exact rfl
    · have hf1 := ch2.mpr hsem
      have hsem2 : ¬ semMatch g2 s2.readFiles
          (fs.map (absoluteNodePath cwd)) := fun hm =>
        hsem (graphEquiv_semMatch (graphEquiv_symm h) hperm.symm hm)
      have hf2 := ch2'.mpr hsem2
      rw [hf1, hf2]
      exact rfl

/-- Witness for the amended C9 at the two concrete enumeration orders. -/
theorem C9_determinism_amended_witness :
    agreeBoolErr (StepDependsOnFiles "/w" G1ce ["s"] ["/a", "/b"])
      (StepDependsOnFiles "/w" G2ce ["s"] ["/a", "/b"]) :=
  C9_determinism_amended G1ce G2ce "/w" ["s"] ["/a", "/b"] ce_equiv

/-- Claim C2: on every graph — cyclic step/file relationships included, no
acyclicity hypothesis appears — the memoized walk of `fileDeps` cannot
recurse forever: at the fuel `StepDependsOnFiles` supplies (one more than
the number of distinct writer-step names, each of which is expanded at most
once), the walk always completes for every lookup state and file. -/
theorem C2_query_terminates (g : DependencyGraph) (st : List String)
    (f : String) : (fileDeps g (queryFuel g) st f).isSome :=
  fileDeps_adeq g (queryFuel g) st f
    (Nat.lt_succ_of_le (Nat.le_trans (unmarked_le_len g st) (Nat.le_refl _)))

/-- Claim C1: in the graph built from the trace `s1: R /F1, W /F2`,
`s2: R /F2, W /F3`, `s3: R /F3`, the query for `s3` against `[/F1]` answers
true (transitively through the writer steps), and against any file that is
neither read directly (`/F3`) nor in the backward closure (`/F2`, `/F1`)
it answers false, for every working directory. -/
theorem C1_transitive_dependency :
    verdict (StepDependsOnFiles "/w" gC1 ["s3"] ["/F1"]) = some true ∧
    (∀ cwd u : String,
      absoluteNodePath cwd u ∉ (["/F3", "/F2", "/F1"] : List String) →
      verdict (StepDependsOnFiles cwd gC1 ["s3"] [u]) = some false) := by
  constructor
  · decide
  · intro cwd u hu
    simp only [List.mem_cons, List.not_mem_nil, or_false, not_or] at hu
    obtain ⟨h3, h2, h1⟩ := hu
    have hlook : assocLookup gC1.steps (cmdTreeName ["s3"]) =
        some ⟨cmdTreeName ["s3"], ["/F3"]⟩ := by decide
    have hfd : fileDeps gC1 (queryFuel gC1) [] "/F3" =
        some (["/F2", "/F1"], [cmdTreeName ["s1"], cmdTreeName ["s2"]]) := by
      decide
    have hmap : List.map (absoluteNodePath cwd) [u] =
        [absoluteNodePath cwd u] := rfl
    simp only [StepDependsOnFiles, hmap, hlook]
    simp only [queryLoop]
    rw [if_neg (by simp only [List.mem_singleton]; exact fun he => h3 he.symm)]
    rw [hfd]
    simp only [firstMatch]
    rw [if_neg (by simp only [List.mem_singleton]; exact fun he => h2 he.symm)]
    rw [if_neg (by simp only [List.mem_singleton]; exact fun he => h1 he.symm)]
    rfl

/-- Witness for C1: `/unrelated` is neither read by `s3` nor in its backward
closure, and the query answers false there while the `/F1` query answers
true. -/
theorem C1_transitive_dependency_witness :
    verdict (StepDependsOnFiles "/w" gC1 ["s3"] ["/F1"]) = some true ∧
      verdict (StepDependsOnFiles "/w" gC1 ["s3"] ["/unrelated"]) = some false :=
  ⟨C1_transitive_dependency.1,
    C1_transitive_dependency.2 "/w" "/unrelated" (by decide)⟩

/-- Counterexample to C6 as stated: a record on the sentinel path is NOT
skipped at construction — it creates a read entry (and, for a write, a
writer entry) — and a query whose changed set contains the sentinel path
itself reports a dependency through it. -/
theorem C6_sentinel_counterexample :
    readsOf ((NewDependencyGraph [some ⟨["s"], "R", "/dev/null"⟩]).getD ⟨[], []⟩)
        (cmdTreeName ["s"]) = ["/dev/null"] ∧
    assocLookup ((NewDependencyGraph [some ⟨["s"], "W", "/dev/null"⟩]).getD
        ⟨[], []⟩).fileWriters "/dev/null" = some [cmdTreeName ["s"]] ∧
    verdict (StepDependsOnFiles "/w"
        ((NewDependencyGraph [some ⟨["s"], "R", "/dev/null"⟩]).getD ⟨[], []⟩)
        ["s"] ["/dev/null"]) = some true := by
  decide

/-- Amended C6: sentinel records are not skipped at construction; instead the
transitive walk contributes nothing for a sentinel path (`fileDeps` returns
the empty list at once), so a write to an ignored path never links its
writer's reads into another step's closure — shown on the trace where `s1`
reads `/x` and writes `/dev/null`, and `s2` reads `/dev/null`: `s2` does not
depend on `/x`.  A direct read of the sentinel can still match it. -/
theorem C6_sentinel_amended :
    (∀ (g : DependencyGraph) (st : List String) (f : String) (fuel : Nat),
      f ∈ ignoreFiles → fileDeps g (fuel + 1) st f = some ([], st)) ∧
    verdict (StepDependsOnFiles "/w"
        ((NewDependencyGraph [some ⟨["s1"], "R", "/x"⟩,
          some ⟨["s1"], "W", "/dev/null"⟩,
          some ⟨["s2"], "R", "/dev/null"⟩]).getD ⟨[], []⟩)
        ["s2"] ["/x"]) = some false := by
  constructor
  · intro g st f fuel hf
    simp [fileDeps, hf]
  · decide

/-- Witness for the amended C6 at a concrete sentinel call. -/
theorem C6_sentinel_amended_witness :
    fileDeps gC1 1 [] "/dev/null" = some ([], []) :=
  C6_sentinel_amended.1 gC1 [] "/dev/null" 0 (by decide)

/-- Counterexample to C7 as stated: record paths are not normalized at
construction, so a working-directory-relative record path (`a.txt` under
`/w`) and its absolute equivalent in the query (`/w/a.txt`) are NOT
recognized as the same file: the query reports no dependency. -/
theorem C7_normalization_counterexample :
    absoluteNodePath "/w" "a.txt" = "/w/a.txt" ∧
    verdict (StepDependsOnFiles "/w"
        ((NewDependencyGraph [some ⟨["s"], "R", "a.txt"⟩]).getD ⟨[], []⟩)
        ["s"] ["/w/a.txt"]) = some false := by
  decide

/-- Amended C7: only the `changedFiles` entries are normalized to absolute
form (at query time); a relative changed-files entry is recognized as the
same file as the absolute record path it joins to, for every working
directory. -/
theorem C7_normalization_amended (cwd r : String) (hr : goIsAbs r = false) :
    verdict (StepDependsOnFiles cwd
        ((NewDependencyGraph [some ⟨["s"], "R", goPathJoin cwd r⟩]).getD
          ⟨[], []⟩) ["s"] [r]) = some true := by
  have hF : absoluteNodePath cwd r = goPathJoin cwd r := by
    simp [absoluteNodePath, hr]
  have hg : NewDependencyGraph [some ⟨["s"], "R", goPathJoin cwd r⟩] =
      some ⟨[(cmdTreeName ["s"],
        ⟨cmdTreeName ["s"], [goPathJoin cwd r]⟩)], []⟩ := by
    simp [NewDependencyGraph, buildGraph, addRecord, ancestorChains,
      addAccess, assocLookup, insertRead, assocUpdate]
  rw [hg]
  simp [StepDependsOnFiles, assocLookup, queryLoop, hF, verdict]

/-- Witness for the amended C7 at a concrete working directory and path. -/
theorem C7_normalization_amended_witness :
    verdict (StepDependsOnFiles "/w"
        ((NewDependencyGraph [some ⟨["s"], "R", goPathJoin "/w" "a.txt"⟩]).getD
          ⟨[], []⟩) ["s"] ["a.txt"]) = some true :=
  C7_normalization_amended "/w" "a.txt" (by decide)

/-- Claim C10: with an empty changed-files collection the graph engine
answers `(false, "", nil)` for every step present in the graph, whereas the
legacy `ShouldRunStep` answers `(true, nil)` on an empty updated-nodes set. -/
theorem C10_empty_changeset :
    (∀ (cwd : String) (g : DependencyGraph) (c : List String) (s : Step),
      assocLookup g.steps (cmdTreeName c) = some s →
      StepDependsOnFiles cwd g c [] = .ok false "") ∧
    (∀ (rows : List (List String)) (stepName : String),
      ShouldRunStep rows [] stepName = (true, none)) := by
  constructor
  · intro cwd g c s h
    unfold StepDependsOnFiles
    rw [show ([] : List String).map (absoluteNodePath cwd) = [] from rfl, h]
    exact queryLoop_changed_nil g s.name s.readFiles []
  · intro rows stepName
    simp [ShouldRunStep]

/-- Witness for C10: the step `s3` of the worked example graph with an empty
change set, against the legacy scan with an empty updated-nodes set. -/
theorem C10_empty_changeset_witness :
    StepDependsOnFiles "/w" gC1 ["s3"] [] = .ok false "" ∧
      ShouldRunStep [["a", "R", "/f"]] [] "a" = (true, none) :=
  ⟨C10_empty_changeset.1 "/w" gC1 ["s3"] ⟨cmdTreeName ["s3"], ["/F3"]⟩
      (by decide),
    C10_empty_changeset.2 [["a", "R", "/f"]] "a"⟩
